import Mathlib

set_option maxHeartbeats 1000000

/-!
Shallow embedding of the cruet C extension sources and proofs about them.

Conventions of the embedding:
- C byte strings are modelled as lists of characters; latin-1 decoding used
  by the C code is the identity on bytes, so a Char stands for one byte.
- CPython dict objects are modelled as association lists in insertion order;
  PyDict_SetItem keeps the position of an existing key and replaces its value.
- The open-addressed FNV-1a hash table of the routing map is modelled
  extensionally as an association list: insertion keeps the first rule bound
  to a key, lookup compares complete keys byte for byte.  The hash function
  and the probing sequence are content-addressing optimisations with no
  observable effect on lookup results.
- C long overflow in strtol is not modelled; values are unbounded.
- Recursions that consume a suffix of the input after each step take an
  explicit fuel argument; callers pass length + 1, which is always enough
  because every step consumes at least one element.
-/

namespace Cruet

abbrev Str := List Char

def chars (s : String) : List Char := s.data

def isWsCT (c : Char) : Bool := c == ' ' || c == '\t'

def toLowerAscii (c : Char) : Char :=
  if 'A' ≤ c ∧ c ≤ 'Z' then Char.ofNat (c.toNat + 32) else c

def toUpperAscii (c : Char) : Char :=
  if 'a' ≤ c ∧ c ≤ 'z' then Char.ofNat (c.toNat - 32) else c

/-- Case-insensitive byte equality, as computed by strncasecmp on equal lengths. -/
def ciEq (a b : Str) : Bool := a.map toLowerAscii == b.map toLowerAscii

def isDigitChar (c : Char) : Bool := '0' ≤ c && c ≤ '9'

/-- The character class of C isspace in the default locale. -/
def isCSpace (c : Char) : Bool :=
  c == ' ' || c == '\t' || c == '\n' || c == '\r' ||
  c == Char.ofNat 11 || c == Char.ofNat 12

def natFromDigits (ds : Str) : Nat := ds.foldl (fun a c => a * 10 + (c.toNat - 48)) 0

/-- The largest value of a C long on the 64-bit platforms this extension is
built for; strtol saturates at this bound (and at its negation minus one)
on overflow. -/
def LONG_MAX : Nat := 9223372036854775807

/-- Model of strtol(s, NULL, 10): skip C whitespace, optional sign, then a
maximal digit run (empty run gives 0), saturating at the long range bounds
on overflow. -/
def strtolM (s : Str) : Int :=
  let s1 := s.dropWhile isCSpace
  match s1 with
  | '-' :: ds =>
      max (- (natFromDigits (ds.takeWhile isDigitChar) : Int)) (-(LONG_MAX : Int) - 1)
  | '+' :: ds => min (natFromDigits (ds.takeWhile isDigitChar) : Int) (LONG_MAX : Int)
  | ds => min (natFromDigits (ds.takeWhile isDigitChar) : Int) (LONG_MAX : Int)

/-- Lookup in an insertion-ordered dict modelled as an association list. -/
def assocLookup {α : Type} : List (Str × α) → Str → Option α
  | [], _ => none
  | (k, v) :: rest, key => if k = key then some v else assocLookup rest key

/-- PyDict_SetItem: replace the value at an existing key in place, otherwise
append the new pair at the end. -/
def assocSet {α : Type} : List (Str × α) → Str → α → List (Str × α)
  | [], k, v => [(k, v)]
  | (k0, v0) :: rest, k, v =>
      if k0 = k then (k0, v) :: rest else (k0, v0) :: assocSet rest k v

/-! ## HTTP request parser (src/_cruet/server/http_parser.c) -/

/-- find_crlf: locate the first CR LF pair, returning the bytes before it and
the bytes after it. -/
def find_crlf : List Char → Option (List Char × List Char)
  | [] => none
  | [_] => none
  | a :: b :: rest =>
      if a = '\r' ∧ b = '\n' then some ([], rest)
      else (find_crlf (b :: rest)).map (fun pr => (a :: pr.1, pr.2))

/-- Request line parsing: METHOD SP URI SP VERSION with a version of at least
six bytes; returns none exactly where the C code does Py_RETURN_NONE. -/
def parseReqLine (line : List Char) : Option (List Char × List Char × List Char) :=
  let m := line.takeWhile (fun c => c ≠ ' ')
  if m.length = line.length then none
  else
    let rest1 := line.drop (m.length + 1)
    let uri := rest1.takeWhile (fun c => c ≠ ' ')
    if uri.length = rest1.length then none
    else
      let ver := rest1.drop (uri.length + 1)
      if ver.length < 6 then none
      else some (m, uri, ver)

structure HeaderScan where
  headers : List (Str × Str)
  keep_alive : Bool
  content_length : Int
  rest : List Char
  sawBlank : Bool
deriving DecidableEq

/-- One pass of the header loop of cruet_parse_http_request.  Stops at the
first empty line (sawBlank) or when no complete CRLF line remains.  Tracks
the Content-Length and Connection close side conditions exactly as the C
loop does. -/
def headerScanF : Nat → List Char → List (Str × Str) → Bool → Int → HeaderScan
  | 0, buf, hs, ka, cl => ⟨hs, ka, cl, buf, false⟩
  | fuel + 1, buf, hs, ka, cl =>
      match find_crlf buf with
      | none => ⟨hs, ka, cl, buf, false⟩
      | some (line, after) =>
          if line = [] then ⟨hs, ka, cl, after, true⟩
          else
            let name := line.takeWhile (fun c => c ≠ ':')
            if name.length = line.length then headerScanF fuel after hs ka cl
            else
              let value := (line.drop (name.length + 1)).dropWhile isWsCT
              let cl' := if ciEq name (chars "Content-Length") ∧ value.length < 32
                         then strtolM value else cl
              let ka' := if ciEq name (chars "Connection") ∧ ciEq value (chars "close")
                         then false else ka
              headerScanF fuel after (assocSet hs name value) ka' cl'

def headerScan (post : List Char) : HeaderScan :=
  headerScanF (post.length + 1) post [] true (-1)

/-- The header lines the scan processes, in order, before any dict overwrite:
used to state which raw header lines were seen. -/
def headerLinesF : Nat → List Char → List (Str × Str)
  | 0, _ => []
  | fuel + 1, buf =>
      match find_crlf buf with
      | none => []
      | some (line, after) =>
          if line = [] then []
          else
            let name := line.takeWhile (fun c => c ≠ ':')
            if name.length = line.length then headerLinesF fuel after
            else
              let value := (line.drop (name.length + 1)).dropWhile isWsCT
              (name, value) :: headerLinesF fuel after

def headerLines (post : List Char) : List (Str × Str) :=
  headerLinesF (post.length + 1) post

/-- Body extraction of cruet_parse_http_request given the computed
content length and the bytes after the header block. -/
def bodyOf (cl : Int) (rest : List Char) : List Char :=
  if 0 < cl ∧ cl ≤ (rest.length : Int) then rest.take cl.toNat
  else if cl = 0 ∨ cl = -1 then []
  else rest

structure ParsedRequest where
  method : List Char
  path : List Char
  query_string : List Char
  version : List Char
  headers : List (Str × Str)
  body : List Char
  keep_alive : Bool
deriving DecidableEq

/-- cruet_parse_http_request: none models the Py_None return used for both an
incomplete buffer and a malformed request line. -/
def cruet_parse_http_request (data : List Char) : Option ParsedRequest :=
  if data = [] then none
  else
    match find_crlf data with
    | none => none
    | some (line, post) =>
        match parseReqLine line with
        | none => none
        | some (m, uri, ver) =>
            let path := uri.takeWhile (fun c => c ≠ '?')
            let qs := if path.length = uri.length then [] else uri.drop (path.length + 1)
            let hs := headerScan post
            some ⟨m, path, qs, ver, hs.headers, bodyOf hs.content_length hs.rest, hs.keep_alive⟩

/-! ## Cookie parsing (src/_cruet/http/cookies.c) -/

def trimTrailWs (l : List Char) : List Char := (l.reverse.dropWhile isWsCT).reverse

/-- Main loop of cruet_parse_cookies.  Each iteration consumes at least one
byte, so fuel = length + 1 is always sufficient. -/
def parseCookiesF : Nat → List Char → List (Str × Str) → List (Str × Str)
  | 0, _, acc => acc
  | fuel + 1, s, acc =>
      let s1 := s.dropWhile (fun c => c == ' ' || c == '\t' || c == ';')
      if s1 = [] then acc
      else
        let nameRaw := s1.takeWhile (fun c => c ≠ '=' ∧ c ≠ ';')
        let s2 := s1.drop nameRaw.length
        match s2 with
        | '=' :: s3 =>
            let name := trimTrailWs nameRaw
            let s4 := s3.dropWhile isWsCT
            match s4 with
            | '"' :: s5 =>
                let v := s5.takeWhile (fun c => c ≠ '"')
                let rest := (s5.drop v.length).drop 1
                parseCookiesF fuel rest (if name ≠ [] then assocSet acc name v else acc)
            | _ =>
                let vr := s4.takeWhile (fun c => c ≠ ';')
                let v := trimTrailWs vr
                let rest := s4.drop vr.length
                parseCookiesF fuel rest (if name ≠ [] then assocSet acc name v else acc)
        | _ => parseCookiesF fuel s2 acc

def cruet_parse_cookies (s : List Char) : List (Str × Str) :=
  parseCookiesF (s.length + 1) s []

def trimWs (l : List Char) : List Char :=
  ((l.dropWhile isWsCT).reverse.dropWhile isWsCT).reverse

/-- Cookie parsing as described by the specification sentence: split on
semicolons first, split each segment at its first equals sign, trim
whitespace around name and value, strip one layer of double quotes when the
trimmed value both starts and ends with a quote, skip segments lacking an
equals sign, and let later duplicate names overwrite earlier ones. -/
def parse_cookies_claimspec (s : List Char) : List (Str × Str) :=
  (s.splitOn ';').foldl
    (fun acc seg =>
      let n := seg.takeWhile (fun c => c ≠ '=')
      if n.length = seg.length then acc
      else
        let name := trimWs n
        let v0 := trimWs (seg.drop (n.length + 1))
        let value :=
          if 2 ≤ v0.length ∧ v0.head? = some '"' ∧ v0.getLast? = some '"'
          then (v0.drop 1).dropLast else v0
        assocSet acc name value)
    []

/-! ## Routing engine (src/_cruet/routing/rule.c and map.c) -/

/-- Python values produced by segment capture and consumed by URL building.
The float converter of the C code parses with strtod into a C double and is
outside this embedding; no claim involves it.  A uuid value holds the
canonical lowercase 36-byte form kept by a Python uuid.UUID object. -/
inductive Val where
  | vstr : List Char → Val
  | vint : Nat → Val
  | vuuid : List Char → Val
deriving DecidableEq

abbrev Vals := List (Str × Val)

/-- PyObject_Str of a captured value: a string is itself, an int prints in
decimal, a uuid.UUID prints its canonical lowercase form. -/
def digitChar (k : Nat) : Char :=
  if k = 0 then '0' else if k = 1 then '1' else if k = 2 then '2'
  else if k = 3 then '3' else if k = 4 then '4' else if k = 5 then '5'
  else if k = 6 then '6' else if k = 7 then '7' else if k = 8 then '8' else '9'

def natStrF : Nat → Nat → List Char
  | 0, _ => []
  | fuel + 1, n =>
      if n < 10 then [digitChar n] else natStrF fuel (n / 10) ++ [digitChar (n % 10)]

def natStr (n : Nat) : List Char := natStrF (n + 1) n

def strOfVal : Val → List Char
  | .vstr s => s
  | .vint n => natStr n
  | .vuuid s => s

/-- Compiled rule segments (SegmentType in routing.h).  The converter
parameter fields of the C RuleSegment are calloc-zeroed and never set by
parse_rule_segments nor read by convert_segment_value, so they are omitted.
The any converter stores none when the item list could not be parsed, in
which case the C code accepts every token. -/
inductive Seg where
  | sstatic : List Char → Seg
  | sstring : List Char → Seg
  | sint : List Char → Seg
  | suuid : List Char → Seg
  | spath : List Char → Seg
  | sany : List Char → Option (List Str) → Seg
deriving DecidableEq

def segIsStatic : Seg → Bool
  | .sstatic _ => true
  | _ => false

def segStaticLen : Seg → Nat
  | .sstatic t => t.length
  | _ => 0

/-- UUID shape check of convert_segment_value: 36 bytes, hyphens at offsets
8, 13, 18 and 23, hex digits elsewhere. -/
def isHexChar (c : Char) : Bool :=
  ('0' ≤ c && c ≤ '9') || ('a' ≤ c && c ≤ 'f') || ('A' ≤ c && c ≤ 'F')

def isUuidFormat (tok : List Char) : Bool :=
  tok.length == 36 &&
  (List.range 36).all (fun i =>
    match tok.get? i with
    | some c => if i = 8 ∨ i = 13 ∨ i = 18 ∨ i = 23 then c = '-' else isHexChar c
    | none => false)

/-- convert_segment_value: none models the Py_None no-match return.  The
int branch validates digits and then parses with strtol into a C long, so
the captured value saturates at LONG_MAX on overflow.  The uuid branch
builds a uuid.UUID object, which normalises hex digits to lowercase. -/
def convertSeg (seg : Seg) (tok : List Char) : Option Val :=
  match seg with
  | .sstatic _ => some (.vstr tok)
  | .sstring _ => some (.vstr tok)
  | .sint _ =>
      if tok.all isDigitChar then some (.vint (min (natFromDigits tok) LONG_MAX))
      else none
  | .suuid _ => if isUuidFormat tok then some (.vuuid (tok.map toLowerAscii)) else none
  | .spath _ => some (.vstr tok)
  | .sany _ none => some (.vstr tok)
  | .sany _ (some items) => if tok ∈ items then some (.vstr tok) else none

def segName : Seg → List Char
  | .sstatic _ => []
  | .sstring n => n
  | .sint n => n
  | .suuid n => n
  | .spath n => n
  | .sany n _ => n

/-- Total length of the static text in the remaining segments: the
look-ahead the path converter subtracts from the remaining bytes. -/
def trailStaticLen (segs : List Seg) : Nat :=
  (segs.map segStaticLen).sum

/-- The segment walk of Cruet_Rule_match_internal: returns the captured
values and the unconsumed tail of the path, or none when a segment fails. -/
def segLoop : List Seg → List Char → Vals → Option (Vals × List Char)
  | [], p, acc => some (acc, p)
  | .sstatic t :: rest, p, acc =>
      if p.take t.length = t then segLoop rest (p.drop t.length) acc else none
  | .spath n :: rest, p, acc =>
      let trail := trailStaticLen rest
      if p.length ≤ trail then none
      else
        let cap := p.length - trail
        if cap = 0 then none
        else
          match convertSeg (.spath n) (p.take cap) with
          | none => none
          | some v => segLoop rest (p.drop cap) (assocSet acc n v)
  | seg :: rest, p, acc =>
      let tok := p.takeWhile (fun c => c ≠ '/')
      if tok = [] then none
      else
        match convertSeg seg tok with
        | none => none
        | some v => segLoop rest (p.drop tok.length) (assocSet acc (segName seg) v)

/-- Rule object (Cruet_Rule in routing.h).  The endpoint is optional as in
the C struct; methods_extra models the frozenset of nonstandard verbs. -/
structure Rule where
  rule_str : List Char
  endpoint : Option (List Char)
  methods_bitmask : Nat
  methods_extra : List Str
  strict_slashes : Bool
  segs : List Seg
  is_static : Bool
deriving DecidableEq

def CRUET_METHOD_GET : Nat := 1
def CRUET_METHOD_HEAD : Nat := 2
def CRUET_METHOD_POST : Nat := 4
def CRUET_METHOD_PUT : Nat := 8
def CRUET_METHOD_DELETE : Nat := 16
def CRUET_METHOD_PATCH : Nat := 32
def CRUET_METHOD_OPTIONS : Nat := 64
def CRUET_METHOD_TRACE : Nat := 128

/-- cruet_method_str_to_bit: the C switch compares length and bytes, which
is byte-string equality with the eight standard verbs. -/
def cruet_method_str_to_bit (s : List Char) : Nat :=
  if s = chars "GET" then CRUET_METHOD_GET
  else if s = chars "PUT" then CRUET_METHOD_PUT
  else if s = chars "HEAD" then CRUET_METHOD_HEAD
  else if s = chars "POST" then CRUET_METHOD_POST
  else if s = chars "PATCH" then CRUET_METHOD_PATCH
  else if s = chars "TRACE" then CRUET_METHOD_TRACE
  else if s = chars "DELETE" then CRUET_METHOD_DELETE
  else if s = chars "OPTIONS" then CRUET_METHOD_OPTIONS
  else 0

/-- cruet_rule_has_method: bitmask test for standard verbs, membership in
methods_extra for the rest (a NULL extras set rejects, like the empty one). -/
def cruet_rule_has_method (r : Rule) (bit : Nat) (mu : List Char) : Bool :=
  if bit ≠ 0 then (r.methods_bitmask &&& bit) ≠ 0 else mu ∈ r.methods_extra

/-- Cruet_Rule_match_internal: run the segment walk, then require the path
to be fully consumed unless strict_slashes is off and exactly one trailing
slash remains. -/
def Cruet_Rule_match_internal (r : Rule) (path : List Char) : Option Vals :=
  match segLoop r.segs path [] with
  | none => none
  | some (vals, rest) =>
      if rest = [] then some vals
      else if r.strict_slashes = false ∧ rest = ['/'] then some vals
      else none

/-! ### Rule compilation (Rule_init and parse_rule_segments) -/

/-- The colon search of parse_rule_segments: the first colon seen either
before any opening parenthesis or after a closing one. -/
def findColonIdx : List Char → Bool → Bool → Nat → Option Nat
  | [], _, _, _ => none
  | c :: rest, seenOpen, seenClose, i =>
      if c = ':' ∧ (seenOpen = false ∨ seenClose = true) then some i
      else findColonIdx rest (seenOpen || c == '(')
             (seenClose || (seenOpen && c == ')')) (i + 1)

def firstIdxOf (ch : Char) : List Char → Option Nat
  | [] => none
  | c :: rest => if c = ch then some 0 else (firstIdxOf ch rest).map (· + 1)

/-- Index of the last closing parenthesis recorded by the C scan: the last
one strictly after the first opening parenthesis. -/
def lastCloseAfter (inner : List Char) (openIdx : Nat) : Option Nat :=
  ((List.range inner.length).filter
    (fun i => openIdx < i ∧ inner.get? i = some ')')).getLast?

/-- converter_name_to_type.  The float converter is outside this embedding
(C strtod on doubles), so a float name yields none and rule compilation
fails; no claim concerns float rules. -/
def segOfConvName (name : List Char) (varName : List Char)
    (items : Option (List Str)) : Option Seg :=
  if name = [] ∨ name = chars "string" then some (.sstring varName)
  else if name = chars "int" then some (.sint varName)
  else if name = chars "float" then none
  else if name = chars "uuid" then some (.suuid varName)
  else if name = chars "path" then some (.spath varName)
  else if name = chars "any" then some (.sany varName items)
  else some (.sstring varName)

def trimCSpace (l : List Char) : List Char :=
  ((l.dropWhile isCSpace).reverse.dropWhile isCSpace).reverse

/-- Parse the text between angle brackets into a dynamic segment, following
the colon and parenthesis scan of parse_rule_segments. -/
def mkDynSeg (inner : List Char) : Option Seg :=
  let colonIdx := findColonIdx inner false false 0
  let openIdx := firstIdxOf '(' inner
  match colonIdx with
  | none => segOfConvName [] inner none
  | some ci =>
      let convName :=
        match openIdx with
        | some oi => inner.take oi
        | none => inner.take ci
      let varName := inner.drop (ci + 1)
      let items :=
        match openIdx with
        | none => none
        | some oi =>
            match lastCloseAfter inner oi with
            | none => none
            | some closeIdx =>
                let region := (inner.drop (oi + 1)).take (closeIdx - oi - 1)
                some ((region.splitOn ',').map trimCSpace |>.filter (fun x => x ≠ []))
      segOfConvName convName varName items

/-- parse_rule_segments: alternate static runs and angle-bracket dynamic
markers; an unclosed marker fails. -/
def parseSegsF : Nat → List Char → Option (List Seg)
  | 0, _ => none
  | _ + 1, [] => some []
  | fuel + 1, '<' :: rest =>
      let inner := rest.takeWhile (fun c => c ≠ '>')
      if inner.length = rest.length then none
      else
        match mkDynSeg inner with
        | none => none
        | some seg => (parseSegsF fuel (rest.drop (inner.length + 1))).map (seg :: ·)
  | fuel + 1, c :: rest =>
      let text := (c :: rest).takeWhile (fun x => x ≠ '<')
      (parseSegsF fuel ((c :: rest).drop text.length)).map (.sstatic text :: ·)

def parseSegs (p : List Char) : Option (List Seg) := parseSegsF (p.length + 1) p

/-- Rule_init: uppercase each given method, fold standard verbs into the
bitmask and collect the rest; default to GET when methods is absent; always
add HEAD and OPTIONS; compile the pattern and classify the rule. -/
def mkRule (pattern : List Char) (endpoint : Option (List Char))
    (methods : Option (List Str)) (strict : Bool) : Option Rule :=
  let base : Nat × List Str :=
    match methods with
    | none => (CRUET_METHOD_GET, [])
    | some ms =>
        ms.foldl
          (fun acc mstr =>
            let up := mstr.map toUpperAscii
            let bit := cruet_method_str_to_bit up
            if bit ≠ 0 then (acc.1 ||| bit, acc.2) else (acc.1, acc.2 ++ [up]))
          (0, [])
  let bm := base.1 ||| CRUET_METHOD_HEAD ||| CRUET_METHOD_OPTIONS
  match parseSegs pattern with
  | none => none
  | some segs =>
      some ⟨pattern, endpoint, bm, base.2, strict, segs, segs.all segIsStatic⟩

/-! ### Map, static index and MapAdapter (map.c) -/

/-- Exact-key lookup in the static index. -/
def static_index_lookup : List (Str × Rule) → Str → Option Rule
  | [], _ => none
  | (k, r) :: rest, key => if k = key then some r else static_index_lookup rest key

/-- static_index_insert keeps the first rule registered for a key. -/
def static_index_insert (idx : List (Str × Rule)) (key : Str) (r : Rule) :
    List (Str × Rule) :=
  if (static_index_lookup idx key).isSome then idx else idx ++ [(key, r)]

structure Map where
  rules : List Rule
  static_index : List (Str × Rule)
  dynamic_rules : List Rule
deriving DecidableEq

def emptyMap : Map := ⟨[], [], []⟩

/-- Map_add: append to the full rule list; index static rules by their
pattern string; append dynamic rules to the ordered dynamic array. -/
def Map_add (m : Map) (r : Rule) : Map :=
  { rules := m.rules ++ [r]
    static_index :=
      if r.is_static then static_index_insert m.static_index r.rule_str r
      else m.static_index
    dynamic_rules :=
      if r.is_static then m.dynamic_rules else m.dynamic_rules ++ [r] }

def mkMap (rs : List Rule) : Map := rs.foldl Map_add emptyMap

inductive MatchResult where
  | matched : List Char → Vals → MatchResult
  | methodNotAllowed : MatchResult
  | notFound : MatchResult
deriving DecidableEq

/-- The endpoint string MapAdapter_match emits: the rule endpoint or the
empty string when the rule has none. -/
def epStr (r : Rule) : List Char := r.endpoint.getD []

/-- Uppercased method truncated to the 31-byte stack buffer of
MapAdapter_match. -/
def methodNorm (method : List Char) : List Char :=
  (method.take 31).map toUpperAscii

/-- The dynamic-rule scan of MapAdapter_match, threading the
method_matched_any flag. -/
def dynamicScan : List Rule → List Char → Nat → List Char → Bool → MatchResult
  | [], _, _, _, flag => if flag then .methodNotAllowed else .notFound
  | r :: rs, path, bit, mu, flag =>
      match Cruet_Rule_match_internal r path with
      | none => dynamicScan rs path bit mu flag
      | some vals =>
          if cruet_rule_has_method r bit mu then .matched (epStr r) vals
          else dynamicScan rs path bit mu true

/-- The trailing-slash alternate key probed by MapAdapter_match: drop a
trailing slash from a multi-byte path, otherwise append one when the result
fits the 4096-byte stack buffer. -/
def altKeyOf (path : List Char) : Option (List Char) :=
  if 1 < path.length ∧ path.getLast? = some '/' then some path.dropLast
  else if path.length + 1 < 4096 then some (path ++ ['/']) else none

/-- MapAdapter_match: static index fast path, trailing-slash alternate probe
honored only for non-strict rules, then the ordered dynamic scan; a 405 is
reported when some probed rule matched the path but not the method, else 404.
The server name held by the adapter plays no part in matching, so the map is
taken directly. -/
def MapAdapter_match (m : Map) (path : List Char) (method : List Char) : MatchResult :=
  let mu := methodNorm method
  let bit := cruet_method_str_to_bit mu
  match static_index_lookup m.static_index path with
  | some r =>
      if cruet_rule_has_method r bit mu then .matched (epStr r) []
      else dynamicScan m.dynamic_rules path bit mu true
  | none =>
      match altKeyOf path with
      | some k =>
          match static_index_lookup m.static_index k with
          | some ar =>
              if ar.strict_slashes then dynamicScan m.dynamic_rules path bit mu false
              else if cruet_rule_has_method ar bit mu then .matched (epStr ar) []
              else dynamicScan m.dynamic_rules path bit mu true
          | none => dynamicScan m.dynamic_rules path bit mu false
      | none => dynamicScan m.dynamic_rules path bit mu false

/-- Rule_build: concatenate static text and stringified values, failing with
KeyError (none) on a missing value. -/
def buildSegs : List Seg → Vals → Option (List Char)
  | [], _ => some []
  | .sstatic t :: rest, v => (buildSegs rest v).map (t ++ ·)
  | seg :: rest, v =>
      match assocLookup v (segName seg) with
      | none => none
      | some val => (buildSegs rest v).map (strOfVal val ++ ·)

def Rule_build (r : Rule) (values : Vals) : Option (List Char) :=
  buildSegs r.segs values

/-- MapAdapter_build: the first rule whose endpoint equals the requested one
builds the URL; none models the LookupError when no rule has the endpoint. -/
def MapAdapter_build (m : Map) (endpoint : List Char) (values : Vals) :
    Option (List Char) :=
  match m.rules.find? (fun r => r.endpoint = some endpoint) with
  | none => none
  | some r => Rule_build r values

/-- Rule_get_methods: standard verbs present in the bitmask, in the fixed
table order, followed by the nonstandard extras. -/
def Rule_get_methods (r : Rule) : List Str :=
  (([(CRUET_METHOD_GET, chars "GET"), (CRUET_METHOD_HEAD, chars "HEAD"),
     (CRUET_METHOD_POST, chars "POST"), (CRUET_METHOD_PUT, chars "PUT"),
     (CRUET_METHOD_DELETE, chars "DELETE"), (CRUET_METHOD_PATCH, chars "PATCH"),
     (CRUET_METHOD_OPTIONS, chars "OPTIONS"), (CRUET_METHOD_TRACE, chars "TRACE")]
    : List (Nat × Str)).filter (fun p => r.methods_bitmask &&& p.1 ≠ 0)).map Prod.snd
  ++ r.methods_extra

/-! ## Auxiliary notions for stating the claims -/

def segNotPath : Seg → Bool
  | .spath _ => false
  | _ => true

/-- Dynamic segment names of a rule, in order. -/
def dynNames : List Seg → List Str
  | [] => []
  | .sstatic _ :: rest => dynNames rest
  | seg :: rest => segName seg :: dynNames rest

/-- A dynamic segment other than a path segment recovers its token exactly
when the following segment starts with a slash or nothing follows. -/
def nextSegOk : List Seg → Bool
  | [] => true
  | .sstatic t :: _ => t.head? == some '/'
  | _ => false

/-- Structural conditions on a segment list and a value dict under which
building and rematching are mutually inverse: values are listed in segment
order, every non-path token is nonempty and slash-free and is followed by a
slash or the end, int values fit in a C long (strtol saturates beyond
LONG_MAX, so larger values cannot round-trip), uuid values are canonical
lowercase, a path value is nonempty and only static text follows it. -/
def segsValsOk : List Seg → Vals → Bool
  | [], v => v.isEmpty
  | .sstatic _ :: rest, v => segsValsOk rest v
  | .sstring n :: rest, (n2, .vstr s) :: v =>
      n == n2 && !s.isEmpty && s.all (fun c => c ≠ '/') &&
        nextSegOk rest && segsValsOk rest v
  | .sint n :: rest, (n2, .vint k) :: v =>
      n == n2 && decide (k ≤ LONG_MAX) && nextSegOk rest && segsValsOk rest v
  | .suuid n :: rest, (n2, .vuuid s) :: v =>
      n == n2 && isUuidFormat s && (s.map toLowerAscii == s) &&
        nextSegOk rest && segsValsOk rest v
  | .spath n :: rest, (n2, .vstr s) :: v =>
      n == n2 && !s.isEmpty && rest.all segIsStatic && segsValsOk rest v
  | .sany n (some items) :: rest, (n2, .vstr s) :: v =>
      n == n2 && decide (s ∈ items) && !s.isEmpty && s.all (fun c => c ≠ '/') &&
        nextSegOk rest && segsValsOk rest v
  | .sany n none :: rest, (n2, .vstr s) :: v =>
      n == n2 && !s.isEmpty && s.all (fun c => c ≠ '/') &&
        nextSegOk rest && segsValsOk rest v
  | _, _ => false

/-- The URL text Rule_build emits for a segment list whose values are listed
in segment order. -/
def emitStr : List Seg → Vals → List Char
  | [], _ => []
  | .sstatic t :: rest, v => t ++ emitStr rest v
  | _ :: _, [] => []
  | _ :: rest, (_, val) :: v => strOfVal val ++ emitStr rest v

/-- The rules whose path pattern the probing of MapAdapter_match actually
tests against the request path: the static hit if any, otherwise the honored
trailing-slash alternate, plus every dynamic rule whose segment walk accepts
the path. -/
def probedPathRules (m : Map) (path : List Char) : List Rule :=
  (match static_index_lookup m.static_index path with
   | some r => [r]
   | none =>
       match altKeyOf path with
       | some k =>
           match static_index_lookup m.static_index k with
           | some ar => if ar.strict_slashes then [] else [ar]
           | none => []
       | none => []) ++
  m.dynamic_rules.filter (fun r => (Cruet_Rule_match_internal r path).isSome)

/-! ## List helper lemmas -/

theorem takeWhile_append_all {p : Char → Bool} {l1 : List Char} (l2 : List Char)
    (h : l1.all p) : (l1 ++ l2).takeWhile p = l1 ++ l2.takeWhile p := by
  induction l1 with
  | nil => rfl
  | cons c cs ih =>
      simp only [List.all_cons, Bool.and_eq_true] at h
      simp [List.takeWhile_cons, h.1, ih h.2]

theorem takeWhile_append_stop {p : Char → Bool} {l1 : List Char} (l2 : List Char)
    (h : ¬ (l1.all p = true)) : (l1 ++ l2).takeWhile p = l1.takeWhile p := by
  induction l1 with
  | nil => exact absurd rfl h
  | cons c cs ih =>
      by_cases hc : p c
      · simp only [List.all_cons, hc, Bool.true_and] at h
        simp [List.takeWhile_cons, hc, ih h]
      · simp [List.takeWhile_cons, hc]

theorem takeWhile_all_eq {p : Char → Bool} {l : List Char} (h : l.all p) :
    l.takeWhile p = l := by
  have h2 : (l ++ []).takeWhile p = l ++ ([] : List Char).takeWhile p :=
    takeWhile_append_all [] h
  simpa using h2

theorem drop_append_cons (a : List Char) (x : Char) (l : List Char) :
    (a ++ x :: l).drop (a.length + 1) = l := by
  have h1 : a ++ x :: l = (a ++ [x]) ++ l := by simp
  have h2 : (a ++ [x]).length = a.length + 1 := by simp
  rw [h1, ← h2, List.drop_left]

theorem length_le_of_take_eq {p t : List Char} (h : p.take t.length = t) :
    t.length ≤ p.length := by
  have := congrArg List.length h
  simp only [List.length_take] at this
  omega

theorem no_mem_all_ne {l : List Char} {x : Char} (h : x ∉ l) :
    l.all (fun c => c ≠ x) = true := by
  rw [List.all_eq_true]
  intro c hc
  simp only [decide_eq_true_eq]
  intro he
  exact h (he ▸ hc)

/-! ## find_crlf lemmas -/

theorem find_crlf_append {line : List Char} (rest : List Char)
    (h : find_crlf line = none) :
    find_crlf (line ++ '\r' :: '\n' :: rest) = some (line, rest) := by
  induction line with
  | nil => simp [find_crlf]
  | cons c cs ih =>
      cases cs with
      | nil =>
          simp only [find_crlf, List.cons_append, List.nil_append]
          have hc : ¬ (c = '\r' ∧ '\r' = '\n') := by
            rintro ⟨-, h2⟩; exact absurd h2 (by decide)
          rw [if_neg hc]
          simp [find_crlf]
      | cons b cs2 =>
          simp only [find_crlf] at h
          by_cases hcb : c = '\r' ∧ b = '\n'
          · rw [if_pos hcb] at h; exact absurd h (by simp)
          · rw [if_neg hcb] at h
            have htail : find_crlf (b :: cs2) = none := by
              cases hfc : find_crlf (b :: cs2) with
              | none => rfl
              | some pr => rw [hfc] at h; exact absurd h (by simp)
            have h2 := ih htail
            simp only [find_crlf, List.cons_append, List.append_eq] at h2 ⊢
            rw [if_neg hcb, h2]
            rfl

/-! ## Decimal digit lemmas -/

theorem digitChar_facts {k : Nat} (h : k < 10) :
    isDigitChar (digitChar k) = true ∧ (digitChar k).toNat = 48 + k := by
  interval_cases k <;> exact ⟨by decide, by decide⟩

theorem isDigitChar_ne_slash {c : Char} (h : isDigitChar c = true) : c ≠ '/' := by
  intro he
  subst he
  exact absurd h (by decide)

theorem natStrF_spec :
    ∀ fuel n, n < fuel →
      natStrF fuel n ≠ [] ∧ (natStrF fuel n).all isDigitChar = true ∧
      natFromDigits (natStrF fuel n) = n := by
  intro fuel
  induction fuel with
  | zero => intro n h; omega
  | succ f ih =>
      intro n h
      by_cases hn : n < 10
      · refine ⟨by simp [natStrF, hn], ?_, ?_⟩
        · simp [natStrF, hn, List.all_cons, (digitChar_facts hn).1]
        · simp [natStrF, hn, natFromDigits, List.foldl, (digitChar_facts hn).2]
      · have hd : n / 10 < f := by omega
        have ihd := ih (n / 10) hd
        have hm : n % 10 < 10 := Nat.mod_lt _ (by omega)
        refine ⟨?_, ?_, ?_⟩
        · simp only [natStrF, hn, if_false]
          intro hcon
          exact ihd.1 (List.append_eq_nil.mp hcon).1
        · simp only [natStrF, hn, if_false, List.all_append, Bool.and_eq_true]
          exact ⟨ihd.2.1, by simp [List.all_cons, (digitChar_facts hm).1]⟩
        · simp only [natStrF, hn, if_false]
          unfold natFromDigits
          rw [List.foldl_append]
          have := ihd.2.2
          unfold natFromDigits at this
          rw [this]
          simp only [List.foldl]
          rw [(digitChar_facts hm).2]
          omega

theorem natStr_ne_nil (n : Nat) : natStr n ≠ [] :=
  (natStrF_spec (n + 1) n (by omega)).1

theorem natStr_all_digit (n : Nat) : (natStr n).all isDigitChar = true :=
  (natStrF_spec (n + 1) n (by omega)).2.1

theorem natFromDigits_natStr (n : Nat) : natFromDigits (natStr n) = n :=
  (natStrF_spec (n + 1) n (by omega)).2.2

theorem natStr_no_slash (n : Nat) : (natStr n).all (fun c => c ≠ '/') = true := by
  rw [List.all_eq_true]
  intro c hc
  have hall := natStr_all_digit n
  rw [List.all_eq_true] at hall
  simpa using isDigitChar_ne_slash (hall c hc)

/-! ## UUID format lemmas -/

theorem isUuidFormat_no_slash {s : List Char} (h : isUuidFormat s = true) :
    s.all (fun c => c ≠ '/') = true := by
  simp only [isUuidFormat, Bool.and_eq_true, beq_iff_eq] at h
  obtain ⟨hlen, hall⟩ := h
  rw [List.all_eq_true] at hall ⊢
  intro c hc
  obtain ⟨i, hi⟩ := List.mem_iff_get.mp hc
  have hilt : i.val < 36 := by omega
  have := hall i.val (List.mem_range.mpr hilt)
  simp only [List.get?_eq_get i.isLt, hi] at this
  simp only [decide_eq_true_eq]
  intro he
  subst he
  by_cases hp : i.val = 8 ∨ i.val = 13 ∨ i.val = 18 ∨ i.val = 23
  · simp only [hp, if_true, decide_eq_true_eq] at this
    exact absurd this (by decide)
  · simp only [hp, if_false] at this
    exact absurd this (by decide)

theorem isUuidFormat_ne_nil {s : List Char} (h : isUuidFormat s = true) : s ≠ [] := by
  simp only [isUuidFormat, Bool.and_eq_true, beq_iff_eq] at h
  intro he
  subst he
  simp at h

/-! ## Association list lemmas -/

theorem assocSet_fresh {α : Type} {acc : List (Str × α)} {k : Str} (v : α)
    (h : assocLookup acc k = none) : assocSet acc k v = acc ++ [(k, v)] := by
  induction acc with
  | nil => rfl
  | cons p rest ih =>
      obtain ⟨k0, v0⟩ := p
      simp only [assocLookup] at h
      by_cases hk : k0 = k
      · rw [if_pos hk] at h; exact absurd h (by simp)
      · rw [if_neg hk] at h
        simp [assocSet, hk, ih h]

theorem assocLookup_append_none {α : Type} {acc : List (Str × α)} {k m : Str} {v : α}
    (h : assocLookup acc m = none) (hne : m ≠ k) :
    assocLookup (acc ++ [(k, v)]) m = none := by
  induction acc with
  | nil =>
      simp only [List.nil_append, assocLookup]
      rw [if_neg (fun h : k = m => hne h.symm)]
  | cons p rest ih =>
      obtain ⟨k0, v0⟩ := p
      simp only [assocLookup] at h ⊢
      by_cases hk : k0 = m
      · rw [if_pos hk] at h; exact absurd h (by simp)
      · rw [if_neg hk] at h ⊢; exact ih h

/-! ## Build and rematch round-trip lemmas -/

theorem emit_headSlash {rest : List Seg} (h : nextSegOk rest = true) (v : Vals) :
    (emitStr rest v).takeWhile (fun c => c ≠ '/') = [] := by
  cases rest with
  | nil => rfl
  | cons seg r2 =>
      cases seg with
      | sstatic t =>
          simp only [nextSegOk, beq_iff_eq] at h
          cases t with
          | nil => simp at h
          | cons c t2 =>
              simp only [List.head?] at h
              injection h with h
              subst h
              simp [emitStr, List.takeWhile_cons]
      | sstring n => exact absurd h (by simp [nextSegOk])
      | sint n => exact absurd h (by simp [nextSegOk])
      | suuid n => exact absurd h (by simp [nextSegOk])
      | spath n => exact absurd h (by simp [nextSegOk])
      | sany n its => exact absurd h (by simp [nextSegOk])

theorem allStatic_vals_nil :
    ∀ {rest : List Seg} {v : Vals}, rest.all segIsStatic = true →
      segsValsOk rest v = true → v = [] := by
  intro rest
  induction rest with
  | nil =>
      intro v _ h2
      simp only [segsValsOk] at h2
      exact List.isEmpty_iff.mp h2
  | cons seg r2 ih =>
      intro v h1 h2
      cases seg with
      | sstatic t =>
          simp only [List.all_cons, Bool.and_eq_true] at h1
          simp only [segsValsOk] at h2
          exact ih h1.2 h2
      | sstring n => simp [List.all_cons, segIsStatic] at h1
      | sint n => simp [List.all_cons, segIsStatic] at h1
      | suuid n => simp [List.all_cons, segIsStatic] at h1
      | spath n => simp [List.all_cons, segIsStatic] at h1
      | sany n its => simp [List.all_cons, segIsStatic] at h1

theorem emit_allStatic_len :
    ∀ {rest : List Seg} (v : Vals), rest.all segIsStatic = true →
      (emitStr rest v).length = trailStaticLen rest := by
  intro rest
  induction rest with
  | nil => intro v _; simp [emitStr, trailStaticLen]
  | cons seg r2 ih =>
      intro v h1
      cases seg with
      | sstatic t =>
          simp only [List.all_cons, Bool.and_eq_true] at h1
          simp only [emitStr, List.length_append, trailStaticLen, List.map_cons,
            List.sum_cons, segStaticLen]
          have := ih v h1.2
          simp only [trailStaticLen] at this
          omega
      | sstring n => simp [List.all_cons, segIsStatic] at h1
      | sint n => simp [List.all_cons, segIsStatic] at h1
      | suuid n => simp [List.all_cons, segIsStatic] at h1
      | spath n => simp [List.all_cons, segIsStatic] at h1
      | sany n its => simp [List.all_cons, segIsStatic] at h1

theorem ne_nil_of_isEmpty_false {α : Type} {l : List α} (h : l.isEmpty = false) :
    l ≠ [] := by
  cases l <;> simp_all

theorem length_pos_of_isEmpty_false {α : Type} {l : List α} (h : l.isEmpty = false) :
    0 < l.length := by
  cases l <;> simp_all

/-- Rule_build emits exactly the concatenation described by emitStr when the
values dict contains each segment value. -/
theorem buildSegs_emit :
    ∀ (segs : List Seg) (v full : Vals),
      segsValsOk segs v = true →
      (∀ p ∈ v, assocLookup full p.1 = some p.2) →
      buildSegs segs full = some (emitStr segs v) := by
  intro segs
  induction segs with
  | nil =>
      intro v full h1 _
      simp only [segsValsOk] at h1
      rw [List.isEmpty_iff.mp h1]
      rfl
  | cons seg rest ih =>
      intro v full h1 h2
      cases seg with
      | sstatic t =>
          simp only [segsValsOk] at h1
          simp only [buildSegs, emitStr]
          rw [ih v full h1 h2]
          rfl
      | sstring n =>
          match v with
          | [] => simp [segsValsOk] at h1
          | (n2, .vstr s) :: v2 =>
              simp only [segsValsOk, Bool.and_eq_true, beq_iff_eq] at h1
              obtain ⟨⟨⟨⟨hn, _⟩, _⟩, _⟩, hsv⟩ := h1
              have hl := h2 (n2, .vstr s) (by simp)
              simp only [buildSegs, segName, hn, hl, emitStr, strOfVal]
              rw [ih v2 full hsv (fun p hp => h2 p (by simp [hp]))]
              rfl
          | (n2, .vint k) :: v2 => simp [segsValsOk] at h1
          | (n2, .vuuid s) :: v2 => simp [segsValsOk] at h1
      | sint n =>
          match v with
          | [] => simp [segsValsOk] at h1
          | (n2, .vint k) :: v2 =>
              simp only [segsValsOk, Bool.and_eq_true, beq_iff_eq] at h1
              obtain ⟨⟨⟨hn, _⟩, _⟩, hsv⟩ := h1
              have hl := h2 (n2, .vint k) (by simp)
              simp only [buildSegs, segName, hn, hl, emitStr, strOfVal]
              rw [ih v2 full hsv (fun p hp => h2 p (by simp [hp]))]
              rfl
          | (n2, .vstr s) :: v2 => simp [segsValsOk] at h1
          | (n2, .vuuid s) :: v2 => simp [segsValsOk] at h1
      | suuid n =>
          match v with
          | [] => simp [segsValsOk] at h1
          | (n2, .vuuid s) :: v2 =>
              simp only [segsValsOk, Bool.and_eq_true, beq_iff_eq] at h1
              obtain ⟨⟨⟨⟨hn, _⟩, _⟩, _⟩, hsv⟩ := h1
              have hl := h2 (n2, .vuuid s) (by simp)
              simp only [buildSegs, segName, hn, hl, emitStr, strOfVal]
              rw [ih v2 full hsv (fun p hp => h2 p (by simp [hp]))]
              rfl
          | (n2, .vstr s) :: v2 => simp [segsValsOk] at h1
          | (n2, .vint k) :: v2 => simp [segsValsOk] at h1
      | spath n =>
          match v with
          | [] => simp [segsValsOk] at h1
          | (n2, .vstr s) :: v2 =>
              simp only [segsValsOk, Bool.and_eq_true, beq_iff_eq] at h1
              obtain ⟨⟨⟨hn, _⟩, _⟩, hsv⟩ := h1
              have hl := h2 (n2, .vstr s) (by simp)
              simp only [buildSegs, segName, hn, hl, emitStr, strOfVal]
              rw [ih v2 full hsv (fun p hp => h2 p (by simp [hp]))]
              rfl
          | (n2, .vint k) :: v2 => simp [segsValsOk] at h1
          | (n2, .vuuid s) :: v2 => simp [segsValsOk] at h1
      | sany n its =>
          cases its with
          | some items =>
              match v with
              | [] => simp [segsValsOk] at h1
              | (n2, .vstr s) :: v2 =>
                  simp only [segsValsOk, Bool.and_eq_true, beq_iff_eq] at h1
                  obtain ⟨⟨⟨⟨⟨hn, _⟩, _⟩, _⟩, _⟩, hsv⟩ := h1
                  have hl := h2 (n2, .vstr s) (by simp)
                  simp only [buildSegs, segName, hn, hl, emitStr, strOfVal]
                  rw [ih v2 full hsv (fun p hp => h2 p (by simp [hp]))]
                  rfl
              | (n2, .vint k) :: v2 => simp [segsValsOk] at h1
              | (n2, .vuuid s) :: v2 => simp [segsValsOk] at h1
          | none =>
              match v with
              | [] => simp [segsValsOk] at h1
              | (n2, .vstr s) :: v2 =>
                  simp only [segsValsOk, Bool.and_eq_true, beq_iff_eq] at h1
                  obtain ⟨⟨⟨⟨hn, _⟩, _⟩, _⟩, hsv⟩ := h1
                  have hl := h2 (n2, .vstr s) (by simp)
                  simp only [buildSegs, segName, hn, hl, emitStr, strOfVal]
                  rw [ih v2 full hsv (fun p hp => h2 p (by simp [hp]))]
                  rfl
              | (n2, .vint k) :: v2 => simp [segsValsOk] at h1
              | (n2, .vuuid s) :: v2 => simp [segsValsOk] at h1

/-- The segment walk of Cruet_Rule_match_internal recovers exactly the
values that built the URL, consuming the full emitted string. -/
theorem segLoop_emit :
    ∀ (segs : List Seg) (v acc : Vals),
      segsValsOk segs v = true →
      (dynNames segs).Nodup →
      (∀ m ∈ dynNames segs, assocLookup acc m = none) →
      segLoop segs (emitStr segs v) acc = some (acc ++ v, []) := by
  intro segs
  induction segs with
  | nil =>
      intro v acc h1 _ _
      simp only [segsValsOk] at h1
      rw [List.isEmpty_iff.mp h1]
      simp [emitStr, segLoop]
  | cons seg rest ih =>
      intro v acc h1 hnd hfresh
      cases seg with
      | sstatic t =>
          simp only [segsValsOk] at h1
          have hdn : dynNames (Seg.sstatic t :: rest) = dynNames rest := by
            simp [dynNames]
          rw [hdn] at hnd hfresh
          simp only [emitStr, segLoop]
          rw [if_pos (List.take_left t (emitStr rest v)), List.drop_left]
          exact ih v acc h1 hnd hfresh
      | sstring n =>
          match v with
          | [] => simp [segsValsOk] at h1
          | (n2, .vstr s) :: v2 =>
              simp only [segsValsOk, Bool.and_eq_true, beq_iff_eq] at h1
              obtain ⟨⟨⟨⟨hn, hb⟩, hslash⟩, hnx⟩, hsv⟩ := h1
              have hsne : s ≠ [] := ne_nil_of_isEmpty_false (by simpa using hb)
              have hdn : dynNames (Seg.sstring n :: rest) = n :: dynNames rest := by
                simp [dynNames, segName]
              rw [hdn] at hnd hfresh
              have hfn : assocLookup acc n = none := hfresh n (by simp)
              have hnotin : n ∉ dynNames rest := (List.nodup_cons.mp hnd).1
              have hndr : (dynNames rest).Nodup := (List.nodup_cons.mp hnd).2
              simp only [emitStr, strOfVal, segLoop]
              have htw : (s ++ emitStr rest v2).takeWhile (fun c => c ≠ '/') = s := by
                rw [takeWhile_append_all _ hslash, emit_headSlash hnx v2,
                  List.append_nil]
              rw [htw, if_neg hsne]
              simp only [convertSeg, segName]
              rw [assocSet_fresh _ hfn, List.drop_left]
              have hfresh2 : ∀ m ∈ dynNames rest,
                  assocLookup (acc ++ [(n, Val.vstr s)]) m = none := by
                intro m hm
                exact assocLookup_append_none (hfresh m (by simp [hm]))
                  (fun he => hnotin (he ▸ hm))
              rw [ih v2 (acc ++ [(n, Val.vstr s)]) hsv hndr hfresh2]
              subst hn
              simp
          | (n2, .vint k) :: v2 => simp [segsValsOk] at h1
          | (n2, .vuuid s) :: v2 => simp [segsValsOk] at h1
      | sint n =>
          match v with
          | [] => simp [segsValsOk] at h1
          | (n2, .vint k) :: v2 =>
              simp only [segsValsOk, Bool.and_eq_true, beq_iff_eq,
                decide_eq_true_eq] at h1
              obtain ⟨⟨⟨hn, hkle⟩, hnx⟩, hsv⟩ := h1
              have hsne : natStr k ≠ [] := natStr_ne_nil k
              have hdn : dynNames (Seg.sint n :: rest) = n :: dynNames rest := by
                simp [dynNames, segName]
              rw [hdn] at hnd hfresh
              have hfn : assocLookup acc n = none := hfresh n (by simp)
              have hnotin : n ∉ dynNames rest := (List.nodup_cons.mp hnd).1
              have hndr : (dynNames rest).Nodup := (List.nodup_cons.mp hnd).2
              simp only [emitStr, strOfVal, segLoop]
              have htw : (natStr k ++ emitStr rest v2).takeWhile (fun c => c ≠ '/') =
                  natStr k := by
                rw [takeWhile_append_all _ (natStr_no_slash k),
                  emit_headSlash hnx v2, List.append_nil]
              rw [htw, if_neg hsne]
              simp only [convertSeg, natStr_all_digit k, if_true,
                natFromDigits_natStr k, Nat.min_eq_left hkle, segName]
              rw [assocSet_fresh _ hfn, List.drop_left]
              have hfresh2 : ∀ m ∈ dynNames rest,
                  assocLookup (acc ++ [(n, Val.vint k)]) m = none := by
                intro m hm
                exact assocLookup_append_none (hfresh m (by simp [hm]))
                  (fun he => hnotin (he ▸ hm))
              rw [ih v2 (acc ++ [(n, Val.vint k)]) hsv hndr hfresh2]
              subst hn
              simp
          | (n2, .vstr s) :: v2 => simp [segsValsOk] at h1
          | (n2, .vuuid s) :: v2 => simp [segsValsOk] at h1
      | suuid n =>
          match v with
          | [] => simp [segsValsOk] at h1
          | (n2, .vuuid s) :: v2 =>
              simp only [segsValsOk, Bool.and_eq_true, beq_iff_eq] at h1
              obtain ⟨⟨⟨⟨hn, huf⟩, hlow⟩, hnx⟩, hsv⟩ := h1
              have hsne : s ≠ [] := isUuidFormat_ne_nil huf
              have hdn : dynNames (Seg.suuid n :: rest) = n :: dynNames rest := by
                simp [dynNames, segName]
              rw [hdn] at hnd hfresh
              have hfn : assocLookup acc n = none := hfresh n (by simp)
              have hnotin : n ∉ dynNames rest := (List.nodup_cons.mp hnd).1
              have hndr : (dynNames rest).Nodup := (List.nodup_cons.mp hnd).2
              simp only [emitStr, strOfVal, segLoop]
              have htw : (s ++ emitStr rest v2).takeWhile (fun c => c ≠ '/') = s := by
                rw [takeWhile_append_all _ (isUuidFormat_no_slash huf),
                  emit_headSlash hnx v2, List.append_nil]
              rw [htw, if_neg hsne]
              simp only [convertSeg, huf, if_true, hlow, segName]
              rw [assocSet_fresh _ hfn, List.drop_left]
              have hfresh2 : ∀ m ∈ dynNames rest,
                  assocLookup (acc ++ [(n, Val.vuuid s)]) m = none := by
                intro m hm
                exact assocLookup_append_none (hfresh m (by simp [hm]))
                  (fun he => hnotin (he ▸ hm))
              rw [ih v2 (acc ++ [(n, Val.vuuid s)]) hsv hndr hfresh2]
              subst hn
              simp
          | (n2, .vstr s) :: v2 => simp [segsValsOk] at h1
          | (n2, .vint k) :: v2 => simp [segsValsOk] at h1
      | spath n =>
          match v with
          | [] => simp [segsValsOk] at h1
          | (n2, .vstr s) :: v2 =>
              simp only [segsValsOk, Bool.and_eq_true, beq_iff_eq] at h1
              obtain ⟨⟨⟨hn, hb⟩, hstat⟩, hsv⟩ := h1
              have hv2 : v2 = [] := allStatic_vals_nil hstat hsv
              subst hv2
              have hspos : 0 < s.length :=
                length_pos_of_isEmpty_false (by simpa using hb)
              have hdn : dynNames (Seg.spath n :: rest) = n :: dynNames rest := by
                simp [dynNames, segName]
              rw [hdn] at hnd hfresh
              have hfn : assocLookup acc n = none := hfresh n (by simp)
              have hndr : (dynNames rest).Nodup := (List.nodup_cons.mp hnd).2
              have htrail : (emitStr rest []).length = trailStaticLen rest :=
                emit_allStatic_len [] hstat
              simp only [emitStr, strOfVal, segLoop]
              have hcond : ¬((s ++ emitStr rest []).length ≤ trailStaticLen rest) := by
                rw [List.length_append, ← htrail]
                omega
              rw [if_neg hcond]
              have hcap : (s ++ emitStr rest []).length - trailStaticLen rest =
                  s.length := by
                rw [List.length_append, ← htrail]
                omega
              rw [hcap, if_neg (by omega : ¬ s.length = 0)]
              rw [List.take_left, List.drop_left]
              simp only [convertSeg]
              rw [assocSet_fresh _ hfn]
              have hfresh2 : ∀ m ∈ dynNames rest,
                  assocLookup (acc ++ [(n, Val.vstr s)]) m = none := by
                intro m hm
                exact assocLookup_append_none (hfresh m (by simp [hm]))
                  (fun he => ((List.nodup_cons.mp hnd).1) (he ▸ hm))
              rw [ih [] (acc ++ [(n, Val.vstr s)]) hsv hndr hfresh2]
              subst hn
              simp
          | (n2, .vint k) :: v2 => simp [segsValsOk] at h1
          | (n2, .vuuid s) :: v2 => simp [segsValsOk] at h1
      | sany n its =>
          cases its with
          | some items =>
              match v with
              | [] => simp [segsValsOk] at h1
              | (n2, .vstr s) :: v2 =>
                  simp only [segsValsOk, Bool.and_eq_true, beq_iff_eq,
                    decide_eq_true_eq] at h1
                  obtain ⟨⟨⟨⟨⟨hn, hmem⟩, hb⟩, hslash⟩, hnx⟩, hsv⟩ := h1
                  have hsne : s ≠ [] := ne_nil_of_isEmpty_false (by simpa using hb)
                  have hdn : dynNames (Seg.sany n (some items) :: rest) =
                      n :: dynNames rest := by simp [dynNames, segName]
                  rw [hdn] at hnd hfresh
                  have hfn : assocLookup acc n = none := hfresh n (by simp)
                  have hnotin : n ∉ dynNames rest := (List.nodup_cons.mp hnd).1
                  have hndr : (dynNames rest).Nodup := (List.nodup_cons.mp hnd).2
                  simp only [emitStr, strOfVal, segLoop]
                  have htw : (s ++ emitStr rest v2).takeWhile (fun c => c ≠ '/') = s := by
                    rw [takeWhile_append_all _ hslash, emit_headSlash hnx v2,
                      List.append_nil]
                  rw [htw, if_neg hsne]
                  simp only [convertSeg, hmem, if_true, segName]
                  rw [assocSet_fresh _ hfn, List.drop_left]
                  have hfresh2 : ∀ m ∈ dynNames rest,
                      assocLookup (acc ++ [(n, Val.vstr s)]) m = none := by
                    intro m hm
                    exact assocLookup_append_none (hfresh m (by simp [hm]))
                      (fun he => hnotin (he ▸ hm))
                  rw [ih v2 (acc ++ [(n, Val.vstr s)]) hsv hndr hfresh2]
                  subst hn
                  simp
              | (n2, .vint k) :: v2 => simp [segsValsOk] at h1
              | (n2, .vuuid s) :: v2 => simp [segsValsOk] at h1
          | none =>
              match v with
              | [] => simp [segsValsOk] at h1
              | (n2, .vstr s) :: v2 =>
                  simp only [segsValsOk, Bool.and_eq_true, beq_iff_eq] at h1
                  obtain ⟨⟨⟨⟨hn, hb⟩, hslash⟩, hnx⟩, hsv⟩ := h1
                  have hsne : s ≠ [] := ne_nil_of_isEmpty_false (by simpa using hb)
                  have hdn : dynNames (Seg.sany n none :: rest) =
                      n :: dynNames rest := by simp [dynNames, segName]
                  rw [hdn] at hnd hfresh
                  have hfn : assocLookup acc n = none := hfresh n (by simp)
                  have hnotin : n ∉ dynNames rest := (List.nodup_cons.mp hnd).1
                  have hndr : (dynNames rest).Nodup := (List.nodup_cons.mp hnd).2
                  simp only [emitStr, strOfVal, segLoop]
                  have htw : (s ++ emitStr rest v2).takeWhile (fun c => c ≠ '/') = s := by
                    rw [takeWhile_append_all _ hslash, emit_headSlash hnx v2,
                      List.append_nil]
                  rw [htw, if_neg hsne]
                  simp only [convertSeg, segName]
                  rw [assocSet_fresh _ hfn, List.drop_left]
                  have hfresh2 : ∀ m ∈ dynNames rest,
                      assocLookup (acc ++ [(n, Val.vstr s)]) m = none := by
                    intro m hm
                    exact assocLookup_append_none (hfresh m (by simp [hm]))
                      (fun he => hnotin (he ▸ hm))
                  rw [ih v2 (acc ++ [(n, Val.vstr s)]) hsv hndr hfresh2]
                  subst hn
                  simp
              | (n2, .vint k) :: v2 => simp [segsValsOk] at h1
              | (n2, .vuuid s) :: v2 => simp [segsValsOk] at h1

/-- Cruet_Rule_match_internal accepts the built URL of a rule and returns
exactly the values that built it. -/
theorem matchInternal_emit (r : Rule) (v : Vals)
    (h : segsValsOk r.segs v = true) (hnd : (dynNames r.segs).Nodup) :
    Cruet_Rule_match_internal r (emitStr r.segs v) = some v := by
  unfold Cruet_Rule_match_internal
  rw [segLoop_emit r.segs v [] h hnd (fun m _ => rfl)]
  simp

/-! ## Dynamic scan lemmas -/

/-- The dynamic scan returns the first rule that matches both path and
method, regardless of the incoming method_matched_any flag. -/
theorem dynamicScan_first :
    ∀ (pre : List Rule) (r : Rule) (post : List Rule) (path : List Char)
      (bit : Nat) (mu : List Char) (flag : Bool) (v : Vals),
      (∀ r2 ∈ pre, Cruet_Rule_match_internal r2 path = none ∨
        cruet_rule_has_method r2 bit mu = false) →
      Cruet_Rule_match_internal r path = some v →
      cruet_rule_has_method r bit mu = true →
      dynamicScan (pre ++ r :: post) path bit mu flag = .matched (epStr r) v := by
  intro pre
  induction pre with
  | nil =>
      intro r post path bit mu flag v _ hm hh
      simp only [List.nil_append, dynamicScan, hm, hh, if_true]
  | cons r2 pre2 ih =>
      intro r post path bit mu flag v hpre hm hh
      have h2 := hpre r2 (by simp)
      cases hmi : Cruet_Rule_match_internal r2 path with
      | none =>
          simp only [List.cons_append, dynamicScan, hmi]
          exact ih r post path bit mu flag v
            (fun x hx => hpre x (by simp [hx])) hm hh
      | some v2 =>
          rcases h2 with h2 | h2
          · rw [h2] at hmi; exact absurd hmi (by simp)
          · simp only [List.cons_append, dynamicScan, hmi, h2, Bool.false_eq_true,
              if_false]
            exact ih r post path bit mu true v
              (fun x hx => hpre x (by simp [hx])) hm hh

/-- When every path-matching rule of the list lacks the method, the scan
answers 405 exactly when the flag is set or some rule matched the path. -/
theorem dynamicScan_no_method :
    ∀ (l : List Rule) (path : List Char) (bit : Nat) (mu : List Char) (flag : Bool),
      (∀ r ∈ l, (Cruet_Rule_match_internal r path).isSome = true →
        cruet_rule_has_method r bit mu = false) →
      dynamicScan l path bit mu flag =
        if flag || l.any (fun r => (Cruet_Rule_match_internal r path).isSome)
        then .methodNotAllowed else .notFound := by
  intro l
  induction l with
  | nil => intro path bit mu flag _; simp [dynamicScan]
  | cons r l2 ih =>
      intro path bit mu flag h
      cases hmi : Cruet_Rule_match_internal r path with
      | none =>
          simp only [dynamicScan, hmi, List.any_cons, Option.isSome_none,
            Bool.false_or]
          exact ih path bit mu flag (fun x hx => h x (by simp [hx]))
      | some v =>
          have hr := h r (by simp) (by simp [hmi])
          simp only [dynamicScan, hmi, hr, Bool.false_eq_true, if_false,
            List.any_cons, Option.isSome_some, Bool.true_or]
          rw [ih path bit mu true (fun x hx => h x (by simp [hx]))]
          simp

/-- When every path-matching rule of the list allows the method and at least
one rule matches the path, the scan succeeds. -/
theorem dynamicScan_all_allowed :
    ∀ (l : List Rule) (path : List Char) (bit : Nat) (mu : List Char) (flag : Bool),
      (∀ r ∈ l, (Cruet_Rule_match_internal r path).isSome = true →
        cruet_rule_has_method r bit mu = true) →
      l.any (fun r => (Cruet_Rule_match_internal r path).isSome) = true →
      ∃ ep v, dynamicScan l path bit mu flag = .matched ep v := by
  intro l
  induction l with
  | nil => intro path bit mu flag _ h2; simp at h2
  | cons r l2 ih =>
      intro path bit mu flag h h2
      cases hmi : Cruet_Rule_match_internal r path with
      | none =>
          simp only [List.any_cons, hmi, Option.isSome_none, Bool.false_or] at h2
          simp only [dynamicScan, hmi]
          exact ih path bit mu flag (fun x hx => h x (by simp [hx])) h2
      | some v =>
          simp only [dynamicScan, hmi, h r (by simp) (by simp [hmi]), if_true]
          exact ⟨epStr r, v, rfl⟩

/-! ## Trailing slash lemmas for the segment walk -/

theorem takeWhile_length_le {p : Char → Bool} :
    ∀ l : List Char, (l.takeWhile p).length ≤ l.length := by
  intro l
  induction l with
  | nil => simp
  | cons c cs ih =>
      by_cases hc : p c
      · simpa [List.takeWhile_cons, hc] using Nat.succ_le_succ ih
      · simp [List.takeWhile_cons, hc]

/-- Appending bytes that start with a slash to an accepted path leaves the
walk of a rule without path converters unchanged and appends the bytes to
the unconsumed tail. -/
theorem segLoop_append :
    ∀ (segs : List Seg) (p q : List Char) (acc vals : Vals) (rest0 : List Char),
      segs.all segNotPath = true →
      q.head? = some '/' →
      segLoop segs p acc = some (vals, rest0) →
      segLoop segs (p ++ q) acc = some (vals, rest0 ++ q) := by
  intro segs
  induction segs with
  | nil =>
      intro p q acc vals rest0 _ _ h
      simp only [segLoop] at h ⊢
      injection h with h
      injection h with h1 h2
      subst h1; subst h2
      rfl
  | cons seg rest ih =>
      intro p q acc vals rest0 hnp hq h
      simp only [List.all_cons, Bool.and_eq_true] at hnp
      obtain ⟨q2, rfl⟩ : ∃ q2, q = '/' :: q2 := by
        cases q with
        | nil => simp at hq
        | cons c q2 =>
            simp only [List.head?] at hq
            injection hq with hq
            exact ⟨q2, by rw [hq]⟩
      have hqtw : ∀ l : List Char,
          (('/' : Char) :: l).takeWhile (fun c => c ≠ '/') = [] := by
        intro l; simp [List.takeWhile_cons]
      cases seg with
      | spath n => simp [segNotPath] at hnp
      | sstatic t =>
          simp only [segLoop] at h ⊢
          by_cases ht : p.take t.length = t
          · have hle := length_le_of_take_eq ht
            rw [if_pos ht] at h
            rw [if_pos (by rw [List.take_append_of_le_length hle]; exact ht)]
            rw [List.drop_append_of_le_length hle]
            exact ih (p.drop t.length) _ acc vals rest0 hnp.2 rfl h
          · rw [if_neg ht] at h
            exact absurd h (by simp)
      | sstring n =>
          simp only [segLoop] at h ⊢
          have htw : (p ++ '/' :: q2).takeWhile (fun c => c ≠ '/') =
              p.takeWhile (fun c => c ≠ '/') := by
            by_cases hall : p.all (fun c => c ≠ '/') = true
            · rw [takeWhile_append_all _ hall, hqtw, List.append_nil,
                takeWhile_all_eq hall]
            · exact takeWhile_append_stop _ hall
          rw [htw]
          by_cases hemp : p.takeWhile (fun c => c ≠ '/') = []
          · rw [if_pos hemp] at h; exact absurd h (by simp)
          · rw [if_neg hemp] at h ⊢
            cases hconv : convertSeg (.sstring n) (p.takeWhile (fun c => c ≠ '/')) with
            | none =>
                rw [hconv] at h
                simp at h
            | some val =>
                rw [hconv] at h
                dsimp only at h ⊢
                have hle : (p.takeWhile (fun c => c ≠ '/')).length ≤ p.length :=
                  takeWhile_length_le _
                rw [List.drop_append_of_le_length hle]
                exact ih _ _ _ vals rest0 hnp.2 rfl h
      | sint n =>
          simp only [segLoop] at h ⊢
          have htw : (p ++ '/' :: q2).takeWhile (fun c => c ≠ '/') =
              p.takeWhile (fun c => c ≠ '/') := by
            by_cases hall : p.all (fun c => c ≠ '/') = true
            · rw [takeWhile_append_all _ hall, hqtw, List.append_nil,
                takeWhile_all_eq hall]
            · exact takeWhile_append_stop _ hall
          rw [htw]
          by_cases hemp : p.takeWhile (fun c => c ≠ '/') = []
          · rw [if_pos hemp] at h; exact absurd h (by simp)
          · rw [if_neg hemp] at h ⊢
            cases hconv : convertSeg (.sint n) (p.takeWhile (fun c => c ≠ '/')) with
            | none =>
                rw [hconv] at h
                simp at h
            | some val =>
                rw [hconv] at h
                dsimp only at h ⊢
                have hle : (p.takeWhile (fun c => c ≠ '/')).length ≤ p.length :=
                  takeWhile_length_le _
                rw [List.drop_append_of_le_length hle]
                exact ih _ _ _ vals rest0 hnp.2 rfl h
      | suuid n =>
          simp only [segLoop] at h ⊢
          have htw : (p ++ '/' :: q2).takeWhile (fun c => c ≠ '/') =
              p.takeWhile (fun c => c ≠ '/') := by
            by_cases hall : p.all (fun c => c ≠ '/') = true
            · rw [takeWhile_append_all _ hall, hqtw, List.append_nil,
                takeWhile_all_eq hall]
            · exact takeWhile_append_stop _ hall
          rw [htw]
          by_cases hemp : p.takeWhile (fun c => c ≠ '/') = []
          · rw [if_pos hemp] at h; exact absurd h (by simp)
          · rw [if_neg hemp] at h ⊢
            cases hconv : convertSeg (.suuid n) (p.takeWhile (fun c => c ≠ '/')) with
            | none =>
                rw [hconv] at h
                simp at h
            | some val =>
                rw [hconv] at h
                dsimp only at h ⊢
                have hle : (p.takeWhile (fun c => c ≠ '/')).length ≤ p.length :=
                  takeWhile_length_le _
                rw [List.drop_append_of_le_length hle]
                exact ih _ _ _ vals rest0 hnp.2 rfl h
      | sany n its =>
          simp only [segLoop] at h ⊢
          have htw : (p ++ '/' :: q2).takeWhile (fun c => c ≠ '/') =
              p.takeWhile (fun c => c ≠ '/') := by
            by_cases hall : p.all (fun c => c ≠ '/') = true
            · rw [takeWhile_append_all _ hall, hqtw, List.append_nil,
                takeWhile_all_eq hall]
            · exact takeWhile_append_stop _ hall
          rw [htw]
          by_cases hemp : p.takeWhile (fun c => c ≠ '/') = []
          · rw [if_pos hemp] at h; exact absurd h (by simp)
          · rw [if_neg hemp] at h ⊢
            cases hconv : convertSeg (.sany n its) (p.takeWhile (fun c => c ≠ '/')) with
            | none =>
                rw [hconv] at h
                simp at h
            | some val =>
                rw [hconv] at h
                dsimp only at h ⊢
                have hle : (p.takeWhile (fun c => c ≠ '/')).length ≤ p.length :=
                  takeWhile_length_le _
                rw [List.drop_append_of_le_length hle]
                exact ih _ _ _ vals rest0 hnp.2 rfl h

/-- Strict-slash tolerance of the final check of Cruet_Rule_match_internal,
for rules without path converters: one extra trailing slash is accepted
exactly when strict_slashes is off, two never. -/
theorem matchInternal_trailing (r : Rule) (p : List Char) (vals : Vals)
    (hnp : r.segs.all segNotPath = true)
    (h : segLoop r.segs p [] = some (vals, [])) :
    Cruet_Rule_match_internal r p = some vals ∧
    Cruet_Rule_match_internal r (p ++ ['/']) =
      (if r.strict_slashes then none else some vals) ∧
    Cruet_Rule_match_internal r (p ++ ['/', '/']) = none := by
  refine ⟨?_, ?_, ?_⟩
  · unfold Cruet_Rule_match_internal
    rw [h]
    simp
  · have h2 := segLoop_append r.segs p ['/'] [] vals [] hnp rfl h
    unfold Cruet_Rule_match_internal
    rw [h2]
    cases hs : r.strict_slashes <;> simp [hs]
  · have h2 := segLoop_append r.segs p ['/', '/'] [] vals [] hnp rfl h
    unfold Cruet_Rule_match_internal
    rw [h2]
    simp

theorem static_index_lookup_mem :
    ∀ (idx : List (Str × Rule)) (key : Str) (r : Rule),
      static_index_lookup idx key = some r → ∃ k, (k, r) ∈ idx := by
  intro idx
  induction idx with
  | nil => intro key r h; exact absurd h (by simp [static_index_lookup])
  | cons p rest ih =>
      intro key r h
      obtain ⟨k0, r0⟩ := p
      simp only [static_index_lookup] at h
      by_cases hk : k0 = key
      · rw [if_pos hk] at h
        injection h with h
        exact ⟨k0, by simp [h]⟩
      · rw [if_neg hk] at h
        obtain ⟨k, hm⟩ := ih key r h
        exact ⟨k, by simp [hm]⟩

/-- Every probed path-matching rule is registered in the static index or in
the dynamic list. -/
theorem probed_sub (m : Map) (path : List Char) :
    ∀ r ∈ probedPathRules m path,
      (∃ k, (k, r) ∈ m.static_index) ∨ r ∈ m.dynamic_rules := by
  intro r hr
  unfold probedPathRules at hr
  rcases List.mem_append.mp hr with hl | hrt
  · left
    rcases hs : static_index_lookup m.static_index path with _ | r2
    · rw [hs] at hl
      dsimp only at hl
      rcases ha : altKeyOf path with _ | k
      · rw [ha] at hl; simp at hl
      · rw [ha] at hl
        dsimp only at hl
        rcases hs2 : static_index_lookup m.static_index k with _ | ar
        · rw [hs2] at hl; simp at hl
        · rw [hs2] at hl
          dsimp only at hl
          by_cases hstrict : ar.strict_slashes
          · rw [if_pos hstrict] at hl; simp at hl
          · rw [if_neg hstrict] at hl
            simp only [List.mem_singleton] at hl
            subst hl
            exact static_index_lookup_mem _ _ _ hs2
    · rw [hs] at hl
      dsimp only at hl
      simp only [List.mem_singleton] at hl
      subst hl
      exact static_index_lookup_mem _ _ _ hs
  · right
    exact (List.mem_filter.mp hrt).1

theorem assocLookup_self {α : Type} :
    ∀ (d : List (Str × α)), (d.map Prod.fst).Nodup →
      ∀ p ∈ d, assocLookup d p.1 = some p.2 := by
  intro d
  induction d with
  | nil => intro _ p hp; exact absurd hp (List.not_mem_nil p)
  | cons q rest ih =>
      intro hnd p hp
      obtain ⟨k, v⟩ := q
      simp only [List.map_cons, List.nodup_cons] at hnd
      rcases List.mem_cons.mp hp with hp | hp
      · subst hp
        simp [assocLookup]
      · have hk : k ≠ p.1 := by
          intro he
          exact hnd.1 (he ▸ List.mem_map_of_mem Prod.fst hp)
        simp only [assocLookup, if_neg hk]
        exact ih hnd.2 p hp

/-- The keys of a value dict satisfying segsValsOk are the dynamic segment
names, in order. -/
theorem segsValsOk_names :
    ∀ (segs : List Seg) (v : Vals), segsValsOk segs v = true →
      v.map Prod.fst = dynNames segs := by
  intro segs
  induction segs with
  | nil =>
      intro v h
      simp only [segsValsOk] at h
      rw [List.isEmpty_iff.mp h]
      rfl
  | cons seg rest ih =>
      intro v h
      cases seg with
      | sstatic t =>
          simp only [segsValsOk] at h
          simp [dynNames, ih v h]
      | sstring n =>
          match v with
          | [] => simp [segsValsOk] at h
          | (n2, .vstr s) :: v2 =>
              simp only [segsValsOk, Bool.and_eq_true, beq_iff_eq] at h
              simp [dynNames, segName, h.1.1.1.1, ih v2 h.2]
          | (n2, .vint k) :: v2 => simp [segsValsOk] at h
          | (n2, .vuuid s) :: v2 => simp [segsValsOk] at h
      | sint n =>
          match v with
          | [] => simp [segsValsOk] at h
          | (n2, .vint k) :: v2 =>
              simp only [segsValsOk, Bool.and_eq_true, beq_iff_eq] at h
              simp [dynNames, segName, h.1.1.1, ih v2 h.2]
          | (n2, .vstr s) :: v2 => simp [segsValsOk] at h
          | (n2, .vuuid s) :: v2 => simp [segsValsOk] at h
      | suuid n =>
          match v with
          | [] => simp [segsValsOk] at h
          | (n2, .vuuid s) :: v2 =>
              simp only [segsValsOk, Bool.and_eq_true, beq_iff_eq] at h
              simp [dynNames, segName, h.1.1.1.1, ih v2 h.2]
          | (n2, .vstr s) :: v2 => simp [segsValsOk] at h
          | (n2, .vint k) :: v2 => simp [segsValsOk] at h
      | spath n =>
          match v with
          | [] => simp [segsValsOk] at h
          | (n2, .vstr s) :: v2 =>
              simp only [segsValsOk, Bool.and_eq_true, beq_iff_eq] at h
              simp [dynNames, segName, h.1.1.1, ih v2 h.2]
          | (n2, .vint k) :: v2 => simp [segsValsOk] at h
          | (n2, .vuuid s) :: v2 => simp [segsValsOk] at h
      | sany n its =>
          cases its with
          | some items =>
              match v with
              | [] => simp [segsValsOk] at h
              | (n2, .vstr s) :: v2 =>
                  simp only [segsValsOk, Bool.and_eq_true, beq_iff_eq] at h
                  simp [dynNames, segName, h.1.1.1.1.1, ih v2 h.2]
              | (n2, .vint k) :: v2 => simp [segsValsOk] at h
              | (n2, .vuuid s) :: v2 => simp [segsValsOk] at h
          | none =>
              match v with
              | [] => simp [segsValsOk] at h
              | (n2, .vstr s) :: v2 =>
                  simp only [segsValsOk, Bool.and_eq_true, beq_iff_eq] at h
                  simp [dynNames, segName, h.1.1.1.1, ih v2 h.2]
              | (n2, .vint k) :: v2 => simp [segsValsOk] at h
              | (n2, .vuuid s) :: v2 => simp [segsValsOk] at h

theorem any_iff_filter_ne {α : Type} (p : α → Bool) (l : List α) :
    l.any p = true ↔ l.filter p ≠ [] := by
  rw [List.any_eq_true]
  constructor
  · rintro ⟨a, ha, hp⟩ hnil
    have hm : a ∈ l.filter p := List.mem_filter.mpr ⟨ha, hp⟩
    rw [hnil] at hm
    exact absurd hm (List.not_mem_nil a)
  · intro hne
    rcases hf : l.filter p with _ | ⟨a, rest⟩
    · exact absurd hf hne
    · have hm : a ∈ l.filter p := by rw [hf]; simp
      have := List.mem_filter.mp hm
      exact ⟨a, this.1, this.2⟩

/-- When no probed path-matching rule allows the method, MapAdapter_match
reports 404 or 405 according to whether any rule matched the path at all. -/
theorem match_of_no_method (m : Map) (path method : List Char)
    (h : ∀ r ∈ probedPathRules m path,
      cruet_rule_has_method r (cruet_method_str_to_bit (methodNorm method))
        (methodNorm method) = false) :
    MapAdapter_match m path method =
      if probedPathRules m path = [] then .notFound else .methodNotAllowed := by
  have hdynall : ∀ x ∈ m.dynamic_rules,
      (Cruet_Rule_match_internal x path).isSome = true →
      cruet_rule_has_method x (cruet_method_str_to_bit (methodNorm method))
        (methodNorm method) = false := by
    intro x hx hsome
    apply h
    unfold probedPathRules
    exact List.mem_append_right _ (List.mem_filter.mpr ⟨hx, hsome⟩)
  have hanyfilter := any_iff_filter_ne
    (fun r => (Cruet_Rule_match_internal r path).isSome) m.dynamic_rules
  rcases hs : static_index_lookup m.static_index path with _ | r
  · rcases ha : altKeyOf path with _ | k
    · have hp : probedPathRules m path =
          m.dynamic_rules.filter (fun r => (Cruet_Rule_match_internal r path).isSome) := by
        simp [probedPathRules, hs, ha]
      unfold MapAdapter_match
      rw [hs]
      dsimp only
      rw [ha]
      dsimp only
      rw [dynamicScan_no_method _ _ _ _ _ hdynall, hp]
      rcases hany : m.dynamic_rules.any
          (fun r => (Cruet_Rule_match_internal r path).isSome) with _ | _
      · rw [if_neg (by simp)]
        rw [if_pos (by
          by_contra hne
          exact absurd (hanyfilter.mpr hne) (by simp [hany]))]
      · rw [if_pos (by simp)]
        rw [if_neg (hanyfilter.mp hany)]
    · rcases hs2 : static_index_lookup m.static_index k with _ | ar
      · have hp : probedPathRules m path =
            m.dynamic_rules.filter (fun r => (Cruet_Rule_match_internal r path).isSome) := by
          simp [probedPathRules, hs, ha, hs2]
        unfold MapAdapter_match
        rw [hs]
        dsimp only
        rw [ha]
        dsimp only
        rw [hs2]
        dsimp only
        rw [dynamicScan_no_method _ _ _ _ _ hdynall, hp]
        rcases hany : m.dynamic_rules.any
            (fun r => (Cruet_Rule_match_internal r path).isSome) with _ | _
        · rw [if_neg (by simp)]
          rw [if_pos (by
            by_contra hne
            exact absurd (hanyfilter.mpr hne) (by simp [hany]))]
        · rw [if_pos (by simp)]
          rw [if_neg (hanyfilter.mp hany)]
      · by_cases hstrict : ar.strict_slashes
        · have hp : probedPathRules m path =
              m.dynamic_rules.filter (fun r => (Cruet_Rule_match_internal r path).isSome) := by
            simp [probedPathRules, hs, ha, hs2, hstrict]
          unfold MapAdapter_match
          rw [hs]
          dsimp only
          rw [ha]
          dsimp only
          rw [hs2]
          dsimp only
          rw [if_pos hstrict]
          rw [dynamicScan_no_method _ _ _ _ _ hdynall, hp]
          rcases hany : m.dynamic_rules.any
              (fun r => (Cruet_Rule_match_internal r path).isSome) with _ | _
          · rw [if_neg (by simp)]
            rw [if_pos (by
              by_contra hne
              exact absurd (hanyfilter.mpr hne) (by simp [hany]))]
          · rw [if_pos (by simp)]
            rw [if_neg (hanyfilter.mp hany)]
        · have hp : probedPathRules m path = ar ::
              m.dynamic_rules.filter (fun r => (Cruet_Rule_match_internal r path).isSome) := by
            simp [probedPathRules, hs, ha, hs2, hstrict]
          have har := h ar (by rw [hp]; simp)
          unfold MapAdapter_match
          rw [hs]
          dsimp only
          rw [ha]
          dsimp only
          rw [hs2]
          dsimp only
          rw [if_neg hstrict, har]
          rw [if_neg (by simp : ¬(false = true))]
          rw [dynamicScan_no_method _ _ _ _ _ hdynall, hp]
          rw [if_pos (by simp), if_neg (by simp)]
  · have hp : probedPathRules m path = r ::
        m.dynamic_rules.filter (fun r => (Cruet_Rule_match_internal r path).isSome) := by
      simp [probedPathRules, hs]
    have har := h r (by rw [hp]; simp)
    unfold MapAdapter_match
    rw [hs]
    dsimp only
    rw [har]
    rw [if_neg (by simp : ¬(false = true))]
    rw [dynamicScan_no_method _ _ _ _ _ hdynall, hp]
    rw [if_pos (by simp), if_neg (by simp)]

/-- When every probed path-matching rule allows the method and some rule
matched the path, MapAdapter_match succeeds. -/
theorem match_of_all_method (m : Map) (path method : List Char)
    (hne : probedPathRules m path ≠ [])
    (h : ∀ r ∈ probedPathRules m path,
      cruet_rule_has_method r (cruet_method_str_to_bit (methodNorm method))
        (methodNorm method) = true) :
    ∃ ep v, MapAdapter_match m path method = .matched ep v := by
  have hdynall : ∀ x ∈ m.dynamic_rules,
      (Cruet_Rule_match_internal x path).isSome = true →
      cruet_rule_has_method x (cruet_method_str_to_bit (methodNorm method))
        (methodNorm method) = true := by
    intro x hx hsome
    apply h
    unfold probedPathRules
    exact List.mem_append_right _ (List.mem_filter.mpr ⟨hx, hsome⟩)
  have hanyfilter := any_iff_filter_ne
    (fun r => (Cruet_Rule_match_internal r path).isSome) m.dynamic_rules
  rcases hs : static_index_lookup m.static_index path with _ | r
  · rcases ha : altKeyOf path with _ | k
    · have hp : probedPathRules m path =
          m.dynamic_rules.filter (fun r => (Cruet_Rule_match_internal r path).isSome) := by
        simp [probedPathRules, hs, ha]
      unfold MapAdapter_match
      rw [hs]
      dsimp only
      rw [ha]
      dsimp only
      exact dynamicScan_all_allowed _ _ _ _ _ hdynall
        (hanyfilter.mpr (by rw [← hp]; exact hne))
    · rcases hs2 : static_index_lookup m.static_index k with _ | ar
      · have hp : probedPathRules m path =
            m.dynamic_rules.filter (fun r => (Cruet_Rule_match_internal r path).isSome) := by
          simp [probedPathRules, hs, ha, hs2]
        unfold MapAdapter_match
        rw [hs]
        dsimp only
        rw [ha]
        dsimp only
        rw [hs2]
        dsimp only
        exact dynamicScan_all_allowed _ _ _ _ _ hdynall
          (hanyfilter.mpr (by rw [← hp]; exact hne))
      · by_cases hstrict : ar.strict_slashes
        · have hp : probedPathRules m path =
              m.dynamic_rules.filter (fun r => (Cruet_Rule_match_internal r path).isSome) := by
            simp [probedPathRules, hs, ha, hs2, hstrict]
          unfold MapAdapter_match
          rw [hs]
          dsimp only
          rw [ha]
          dsimp only
          rw [hs2]
          dsimp only
          rw [if_pos hstrict]
          exact dynamicScan_all_allowed _ _ _ _ _ hdynall
            (hanyfilter.mpr (by rw [← hp]; exact hne))
        · have hp : probedPathRules m path = ar ::
              m.dynamic_rules.filter (fun r => (Cruet_Rule_match_internal r path).isSome) := by
            simp [probedPathRules, hs, ha, hs2, hstrict]
          have har := h ar (by rw [hp]; simp)
          unfold MapAdapter_match
          rw [hs]
          dsimp only
          rw [ha]
          dsimp only
          rw [hs2]
          dsimp only
          rw [if_neg hstrict, har]
          exact ⟨epStr ar, [], by simp⟩
  · have hp : probedPathRules m path = r ::
        m.dynamic_rules.filter (fun r => (Cruet_Rule_match_internal r path).isSome) := by
      simp [probedPathRules, hs]
    have har := h r (by rw [hp]; simp)
    unfold MapAdapter_match
    rw [hs]
    dsimp only
    rw [har]
    exact ⟨epStr r, [], by simp⟩

/-! ## Method bitmask lemmas -/

theorem mask_has_head (x : Nat) :
    (x ||| CRUET_METHOD_HEAD ||| CRUET_METHOD_OPTIONS) &&& CRUET_METHOD_HEAD ≠ 0 := by
  intro h
  have h1 := congrArg (fun y => y.testBit 1) h
  simp only [CRUET_METHOD_HEAD, CRUET_METHOD_OPTIONS, Nat.testBit_and,
    Nat.testBit_or] at h1
  have h2 : Nat.testBit 2 1 = true := by decide
  rw [h2] at h1
  simp at h1

theorem mask_has_options (x : Nat) :
    (x ||| CRUET_METHOD_HEAD ||| CRUET_METHOD_OPTIONS) &&& CRUET_METHOD_OPTIONS ≠ 0 := by
  intro h
  have h1 := congrArg (fun y => y.testBit 6) h
  simp only [CRUET_METHOD_HEAD, CRUET_METHOD_OPTIONS, Nat.testBit_and,
    Nat.testBit_or] at h1
  have h2 : Nat.testBit 64 6 = true := by decide
  rw [h2] at h1
  simp at h1

/-! ## Header scan and keep-alive lemmas -/

theorem bool_step (ka c1 c2 x : Bool) :
    ((if c1 = true ∧ c2 = true then false else ka) && !x) =
      (ka && !((c1 && c2) || x)) := by
  cases c1 <;> cases c2 <;> cases ka <;> cases x <;> simp

/-- The keep-alive flag computed by the header loop is the initial flag
cleared exactly when some processed header line is a case-insensitive
Connection close pair. -/
theorem headerScanF_keep_alive :
    ∀ (fuel : Nat) (buf : List Char) (hs : List (Str × Str)) (ka : Bool) (cl : Int),
      (headerScanF fuel buf hs ka cl).keep_alive =
        (ka && !(headerLinesF fuel buf).any
          (fun nv => ciEq nv.1 (chars "Connection") && ciEq nv.2 (chars "close"))) := by
  intro fuel
  induction fuel with
  | zero => intro buf hs ka cl; simp [headerScanF, headerLinesF]
  | succ f ih =>
      intro buf hs ka cl
      rcases hfc : find_crlf buf with _ | ⟨line, after⟩
      · simp [headerScanF, headerLinesF, hfc]
      · by_cases hblank : line = []
        · simp [headerScanF, headerLinesF, hfc, hblank]
        · by_cases hcolon : (line.takeWhile (fun c => c ≠ ':')).length = line.length
          · simp only [headerScanF, headerLinesF, hfc, if_neg hblank, if_pos hcolon]
            exact ih after hs ka cl
          · simp only [headerScanF, headerLinesF, hfc, if_neg hblank, if_neg hcolon]
            rw [ih]
            simp only [List.any_cons]
            exact bool_step ka _ _ _

/-! ## Malformed request line lemmas -/

theorem parseReqLine_no_space (m : List Char) (h : ' ' ∉ m) :
    parseReqLine m = none := by
  unfold parseReqLine
  rw [takeWhile_all_eq (no_mem_all_ne h)]
  simp

theorem parseReqLine_one_space (m u : List Char) (hm : ' ' ∉ m) (hu : ' ' ∉ u) :
    parseReqLine (m ++ ' ' :: u) = none := by
  have h1 : (m ++ ' ' :: u).takeWhile (fun c => c ≠ ' ') = m := by
    rw [takeWhile_append_all _ (no_mem_all_ne hm)]
    simp [List.takeWhile_cons]
  simp only [parseReqLine, h1]
  rw [if_neg (by simp only [List.length_append, List.length_cons]; omega)]
  rw [drop_append_cons]
  rw [takeWhile_all_eq (no_mem_all_ne hu)]
  simp

theorem parseReqLine_short_version (m u v : List Char) (hm : ' ' ∉ m)
    (hu : ' ' ∉ u) (hv : v.length < 6) :
    parseReqLine (m ++ ' ' :: (u ++ ' ' :: v)) = none := by
  have h1 : (m ++ ' ' :: (u ++ ' ' :: v)).takeWhile (fun c => c ≠ ' ') = m := by
    rw [takeWhile_append_all _ (no_mem_all_ne hm)]
    simp [List.takeWhile_cons]
  have h2 : (u ++ ' ' :: v).takeWhile (fun c => c ≠ ' ') = u := by
    rw [takeWhile_append_all _ (no_mem_all_ne hu)]
    simp [List.takeWhile_cons]
  simp only [parseReqLine, h1]
  rw [if_neg (by simp only [List.length_append, List.length_cons]; omega)]
  rw [drop_append_cons]
  simp only [h2]
  rw [if_neg (by simp only [List.length_append, List.length_cons]; omega)]
  rw [drop_append_cons]
  rw [if_pos hv]

/-- A complete first line that the request-line parser rejects makes the
whole parse return the None outcome. -/
theorem parse_malformed_line (line rest : List Char)
    (hcr : find_crlf line = none) (hrl : parseReqLine line = none) :
    cruet_parse_http_request (line ++ '\r' :: '\n' :: rest) = none := by
  unfold cruet_parse_http_request
  rw [if_neg (by simp : ¬(line ++ '\r' :: '\n' :: rest = []))]
  rw [find_crlf_append rest hcr]
  dsimp only
  rw [hrl]

/-! ## Cookie dict key lemmas -/

theorem assocSet_keys_mem {α : Type} :
    ∀ (d : List (Str × α)) (k : Str) (v : α) (km : Str),
      km ∈ (assocSet d k v).map Prod.fst ↔ km ∈ d.map Prod.fst ∨ km = k := by
  intro d
  induction d with
  | nil =>
      intro k v km
      show km ∈ [k] ↔ km ∈ ([] : List Str) ∨ km = k
      rw [List.mem_singleton]
      exact ⟨Or.inr, fun h => h.elim (fun h2 => absurd h2 (List.not_mem_nil km)) id⟩
  | cons p rest ih =>
      intro k v km
      obtain ⟨k0, v0⟩ := p
      have he : assocSet ((k0, v0) :: rest) k v =
          if k0 = k then (k0, v) :: rest else (k0, v0) :: assocSet rest k v := rfl
      by_cases hk : k0 = k
      · subst hk
        rw [he, if_pos rfl]
        simp only [List.map_cons, List.mem_cons]
        constructor
        · exact Or.inl
        · rintro ((h | h) | h)
          · exact Or.inl h
          · exact Or.inr h
          · exact Or.inl h
      · rw [he, if_neg hk]
        simp only [List.map_cons, List.mem_cons]
        constructor
        · rintro (h | h)
          · exact Or.inl (Or.inl h)
          · rcases (ih k v km).mp h with h2 | h2
            · exact Or.inl (Or.inr h2)
            · exact Or.inr h2
        · rintro ((h | h) | h)
          · exact Or.inl h
          · exact Or.inr ((ih k v km).mpr (Or.inl h))
          · exact Or.inr ((ih k v km).mpr (Or.inr h))

theorem assocSet_keys_nodup {α : Type} :
    ∀ (d : List (Str × α)) (k : Str) (v : α),
      (d.map Prod.fst).Nodup → ((assocSet d k v).map Prod.fst).Nodup := by
  intro d
  induction d with
  | nil => intro k v _; exact List.nodup_singleton k
  | cons p rest ih =>
      intro k v hnd
      obtain ⟨k0, v0⟩ := p
      simp only [List.map_cons, List.nodup_cons] at hnd
      have he : assocSet ((k0, v0) :: rest) k v =
          if k0 = k then (k0, v) :: rest else (k0, v0) :: assocSet rest k v := rfl
      by_cases hk : k0 = k
      · subst hk
        rw [he, if_pos rfl, List.map_cons]
        exact List.nodup_cons.mpr hnd
      · rw [he, if_neg hk, List.map_cons]
        refine List.nodup_cons.mpr ⟨?_, ih k v hnd.2⟩
        intro hmem
        rcases (assocSet_keys_mem rest k v k0).mp hmem with hm | hm
        · exact hnd.1 hm
        · exact hk hm

/-- Every dict the cookie parser produces has pairwise distinct names:
later duplicates overwrite earlier entries rather than accumulating. -/
theorem parseCookiesF_keys_nodup :
    ∀ (fuel : Nat) (s : List Char) (acc : List (Str × Str)),
      (acc.map Prod.fst).Nodup →
      (((parseCookiesF fuel s acc).map Prod.fst)).Nodup := by
  intro fuel
  induction fuel with
  | zero => intro s acc h; simpa [parseCookiesF] using h
  | succ f ih =>
      intro s acc h
      rw [parseCookiesF]
      split
      · exact h
      · dsimp only
        split
        · split
          · split
            · exact ih _ _ (assocSet_keys_nodup _ _ _ h)
            · exact ih _ _ h
          · split
            · exact ih _ _ (assocSet_keys_nodup _ _ _ h)
            · exact ih _ _ h
        · exact ih _ _ h

/-! ## Concrete instances used by the claims -/

def defaultRule : Rule := ⟨[], none, 0, [], true, [], true⟩

def ruleC2 : Rule :=
  (mkRule (chars "/x") (some (chars "e")) (some [chars "POST"]) true).getD defaultRule

def mapC2 : Map := mkMap [ruleC2]

def ruleC4s : Rule :=
  (mkRule (chars "/x") (some (chars "e1")) (some [chars "POST"]) true).getD defaultRule

def ruleC4d : Rule :=
  (mkRule (chars "/<p>") (some (chars "e2")) none true).getD defaultRule

def mapC4 : Map := mkMap [ruleC4s, ruleC4d]

/-! ## Claim C1 -/

/-- C1: evaluation at the failing input.  The claim states that the input
GET /x HTTP/1.1 CRLF with no terminating blank header line yields the
Incomplete outcome; the code instead returns a completed parse with an
empty header dict, an empty body and the keep-alive default, because the
header loop simply stops at the end of the buffer without requiring the
blank line.  This theorem documents the divergence by computing the result. -/
theorem claim_C1_no_blank_line_completes :
    cruet_parse_http_request (chars "GET /x HTTP/1.1\r\n") =
      some ⟨chars "GET", chars "/x", [], chars "HTTP/1.1", [], [], true⟩ ∧
    cruet_parse_http_request (chars "GET /x HTTP/1.1\r\n") ≠ none := by
  exact ⟨rfl, by decide⟩

/-! ## Claim C6 -/

/-- C6 counterexample: a complete but malformed request line (no space at
all, here the line X followed by CRLF and even a blank line) produces
exactly the same None outcome as a buffer with no complete request line, so
the parser does not reject malformed lines with an error outcome
distinguishable from Incomplete, contrary to the claim. -/
theorem claim_C6_counterexample :
    cruet_parse_http_request (chars "X\r\n\r\n") = none ∧
    cruet_parse_http_request (chars "GET /x HT") = none ∧
    cruet_parse_http_request (chars "X\r\n\r\n") =
      cruet_parse_http_request (chars "GET /x HT") := ⟨rfl, rfl, rfl⟩

/-- C6 amended: for every input whose first CRLF-terminated line is present
but not of the form METHOD SP URI SP VERSION (fewer than two spaces, or a
version shorter than six bytes), the parser returns the same None outcome
it uses for an incomplete buffer; no distinguishable error is raised. -/
theorem claim_C6_malformed_line_amended :
    (∀ line rest : List Char, find_crlf line = none → ' ' ∉ line →
      cruet_parse_http_request (line ++ '\r' :: '\n' :: rest) = none) ∧
    (∀ m u rest : List Char, find_crlf (m ++ ' ' :: u) = none →
      ' ' ∉ m → ' ' ∉ u →
      cruet_parse_http_request ((m ++ ' ' :: u) ++ '\r' :: '\n' :: rest) = none) ∧
    (∀ m u v rest : List Char, find_crlf (m ++ ' ' :: (u ++ ' ' :: v)) = none →
      ' ' ∉ m → ' ' ∉ u → v.length < 6 →
      cruet_parse_http_request
        ((m ++ ' ' :: (u ++ ' ' :: v)) ++ '\r' :: '\n' :: rest) = none) := by
  refine ⟨?_, ?_, ?_⟩
  · intro line rest hcr hsp
    exact parse_malformed_line line rest hcr (parseReqLine_no_space line hsp)
  · intro m u rest hcr hm hu
    exact parse_malformed_line (m ++ ' ' :: u) rest hcr
      (parseReqLine_one_space m u hm hu)
  · intro m u v rest hcr hm hu hv
    exact parse_malformed_line (m ++ ' ' :: (u ++ ' ' :: v)) rest hcr
      (parseReqLine_short_version m u v hm hu hv)

/-- C6 witness: the amended theorem applied to a concrete short-version
line, GET SP /x SP HT followed by CRLF. -/
theorem claim_C6_witness :
    cruet_parse_http_request
      ((chars "GET" ++ ' ' :: (chars "/x" ++ ' ' :: chars "HT")) ++
        '\r' :: '\n' :: []) = none :=
  claim_C6_malformed_line_amended.2.2 (chars "GET") (chars "/x") (chars "HT") []
    (by decide) (by decide) (by decide) (by decide)

/-! ## Claim C9 -/

/-- C9 counterexample: on the cookie string a equals quote 1 semicolon 2
quote, the code scans the quoted value across the semicolon and yields the
value 1;2, while the splitting procedure described by the claim (split on
semicolons first) yields the value consisting of a double quote and 1; the
two disagree, so the claim description is not the code behavior. -/
theorem claim_C9_counterexample :
    cruet_parse_cookies (chars "a=\"1;2\"") = [(chars "a", chars "1;2")] ∧
    parse_cookies_claimspec (chars "a=\"1;2\"") = [(chars "a", chars "\"1")] ∧
    cruet_parse_cookies (chars "a=\"1;2\"") ≠
      parse_cookies_claimspec (chars "a=\"1;2\"") := by
  exact ⟨rfl, rfl, by decide⟩

/-- C9 amended: the concrete example of the claim holds, a segment lacking
an equals sign is skipped without error, later duplicate names overwrite
earlier values, one layer of double quotes is stripped without unescaping
inner characters, and every produced dict has pairwise distinct names; but
segment splitting interacts with quotes: a value beginning with a double
quote extends to the next closing quote even across semicolons, and an
empty name is skipped. -/
theorem claim_C9_cookies_amended :
    cruet_parse_cookies (chars "a=1; b=2; c=") =
      [(chars "a", chars "1"), (chars "b", chars "2"), (chars "c", [])] ∧
    cruet_parse_cookies (chars "a=1; junk; b=2") =
      [(chars "a", chars "1"), (chars "b", chars "2")] ∧
    cruet_parse_cookies (chars "a=1; a=2") = [(chars "a", chars "2")] ∧
    cruet_parse_cookies (chars "n=\"q\\z\"") = [(chars "n", chars "q\\z")] ∧
    cruet_parse_cookies (chars "a=\"1;2\"; b=3") =
      [(chars "a", chars "1;2"), (chars "b", chars "3")] ∧
    cruet_parse_cookies (chars "=5; b=2") = [(chars "b", chars "2")] ∧
    (∀ s : List Char, ((cruet_parse_cookies s).map Prod.fst).Nodup) := by
  refine ⟨rfl, rfl, rfl, rfl, rfl, rfl, ?_⟩
  intro s
  exact parseCookiesF_keys_nodup (s.length + 1) s [] List.nodup_nil

/-! ## Claim C2 -/

/-- C2: if at least one rule probed by match (static hit, honored alternate,
or dynamic scan) matches the path by segment pattern but none of those rules
allows the requested method, match reports method-not-allowed; if no probed
rule matches the path, it reports not-found.  In particular a map with the
single rule /x restricted to POST answers 405 for GET /x and 404 for
GET /y. -/
theorem claim_C2_notfound_vs_method_not_allowed :
    (∀ (m : Map) (path method : List Char),
      probedPathRules m path ≠ [] →
      (∀ r ∈ probedPathRules m path,
        cruet_rule_has_method r (cruet_method_str_to_bit (methodNorm method))
          (methodNorm method) = false) →
      MapAdapter_match m path method = .methodNotAllowed) ∧
    (∀ (m : Map) (path method : List Char),
      probedPathRules m path = [] →
      MapAdapter_match m path method = .notFound) ∧
    MapAdapter_match mapC2 (chars "/x") (chars "GET") = .methodNotAllowed ∧
    MapAdapter_match mapC2 (chars "/y") (chars "GET") = .notFound := by
  refine ⟨?_, ?_, by decide, by decide⟩
  · intro m path method hne h
    rw [match_of_no_method m path method h, if_neg hne]
  · intro m path method hnil
    rw [match_of_no_method m path method
      (fun r hr => absurd (hnil ▸ hr) (List.not_mem_nil r)), if_pos hnil]

/-- C2 witness: the general 405 clause applied to the concrete single-rule
map, discharging both hypotheses by computation. -/
theorem claim_C2_witness :
    MapAdapter_match mapC2 (chars "/x") (chars "GET") = .methodNotAllowed :=
  claim_C2_notfound_vs_method_not_allowed.1 mapC2 (chars "/x") (chars "GET")
    (by decide) (by decide)

/-! ## Claim C4 -/

/-- C4 counterexample: with a static rule /x restricted to POST and a
dynamic rule matching every one-segment path, both rules match the literal
path /x, yet match of /x with GET returns the dynamic endpoint with
captured values, not the static endpoint with an empty dict: the static
rule does not win for every method, only for methods it allows. -/
theorem claim_C4_counterexample :
    static_index_lookup mapC4.static_index (chars "/x") = some ruleC4s ∧
    Cruet_Rule_match_internal ruleC4d (chars "/x") =
      some [(chars "p", Val.vstr (chars "x"))] ∧
    MapAdapter_match mapC4 (chars "/x") (chars "GET") =
      .matched (chars "e2") [(chars "p", Val.vstr (chars "x"))] := by
  exact ⟨by decide, by decide, by decide⟩

/-- C4 amended: whenever the static index holds a rule for the exact path
and that rule allows the requested method, match returns that static rule
with an empty values dict immediately, taking priority over every dynamic
rule. -/
theorem claim_C4_static_priority_amended :
    ∀ (m : Map) (path method : List Char) (r : Rule),
      static_index_lookup m.static_index path = some r →
      cruet_rule_has_method r (cruet_method_str_to_bit (methodNorm method))
        (methodNorm method) = true →
      MapAdapter_match m path method = .matched (epStr r) [] := by
  intro m path method r h hm
  unfold MapAdapter_match
  rw [h]
  dsimp only
  rw [hm]
  rfl

/-- C4 witness: the amended theorem applied to the concrete map at the
method POST, which the static rule allows. -/
theorem claim_C4_witness :
    MapAdapter_match mapC4 (chars "/x") (chars "POST") =
      .matched (epStr ruleC4s) [] :=
  claim_C4_static_priority_amended mapC4 (chars "/x") (chars "POST") ruleC4s
    (by decide) (by decide)

/-! ## Claim C5 -/

/-- C5: for an input with a complete request line whose header block ends in
a blank line and declares a positive Content-Length N, the parser returns a
completed result whose body is the first N bytes after the blank line when
at least N are buffered, and exactly the bytes available when fewer are
buffered: the parser never signals incompleteness for a short body. -/
theorem claim_C5_body_extraction :
    ∀ (data : List Char) (r : ParsedRequest) (pre post : List Char) (N : Int),
      cruet_parse_http_request data = some r →
      find_crlf data = some (pre, post) →
      (headerScan post).sawBlank = true →
      (headerScan post).content_length = N →
      0 < N →
      ((N ≤ ((headerScan post).rest.length : Int) →
          r.body = (headerScan post).rest.take N.toNat) ∧
       (((headerScan post).rest.length : Int) < N →
          r.body = (headerScan post).rest)) := by
  intro data r pre post N h1 hfc hblank hcl hN
  have hne : data ≠ [] := by
    intro he
    rw [he] at hfc
    exact absurd hfc (by simp [find_crlf])
  unfold cruet_parse_http_request at h1
  rw [if_neg hne, hfc] at h1
  dsimp only at h1
  rcases hrl : parseReqLine pre with _ | ⟨m0, uriver⟩
  · rw [hrl] at h1
    exact absurd h1 (by simp)
  · obtain ⟨uri, ver⟩ := uriver
    rw [hrl] at h1
    dsimp only at h1
    injection h1 with h1
    subst h1
    dsimp only
    constructor
    · intro hle
      rw [hcl]
      unfold bodyOf
      rw [if_pos ⟨hN, hle⟩]
    · intro hlt
      rw [hcl]
      unfold bodyOf
      rw [if_neg (by rintro ⟨-, hc⟩; omega)]
      rw [if_neg (by rintro (hc | hc) <;> omega)]

def dataC5 : List Char := chars "POST /p HTTP/1.1\r\nContent-Length: 9\r\n\r\n12345"

def rC5 : ParsedRequest :=
  ⟨chars "POST", chars "/p", [], chars "HTTP/1.1",
    [(chars "Content-Length", chars "9")], chars "12345", true⟩

/-- C5 witness: a declared Content-Length of 9 with only five buffered body
bytes yields a completed result whose body is those five bytes. -/
theorem claim_C5_witness :
    rC5.body = (headerScan (chars "Content-Length: 9\r\n\r\n12345")).rest :=
  (claim_C5_body_extraction dataC5 rC5 (chars "POST /p HTTP/1.1")
    (chars "Content-Length: 9\r\n\r\n12345") 9 (by decide) (by decide)
    (by decide) (by decide) (by decide)).2 (by decide)

/-! ## Claim C10 -/

/-- C10: for every input the parser completes, the keep-alive flag is false
exactly when some parsed header line has the name Connection and the value
close, both compared case-insensitively; the HTTP version token plays no
part, so an HTTP/1.0 request without a Connection header also yields
keep-alive true. -/
theorem claim_C10_keep_alive :
    (∀ (data : List Char) (r : ParsedRequest) (pre post : List Char),
      cruet_parse_http_request data = some r →
      find_crlf data = some (pre, post) →
      (r.keep_alive = false ↔ ∃ nv ∈ headerLines post,
        ciEq nv.1 (chars "Connection") = true ∧
        ciEq nv.2 (chars "close") = true)) ∧
    cruet_parse_http_request (chars "GET / HTTP/1.0\r\n\r\n") =
      some ⟨chars "GET", chars "/", [], chars "HTTP/1.0", [], [], true⟩ := by
  refine ⟨?_, rfl⟩
  intro data r pre post h1 hfc
  have hne : data ≠ [] := by
    intro he
    rw [he] at hfc
    exact absurd hfc (by simp [find_crlf])
  unfold cruet_parse_http_request at h1
  rw [if_neg hne, hfc] at h1
  dsimp only at h1
  rcases hrl : parseReqLine pre with _ | ⟨m0, uriver⟩
  · rw [hrl] at h1
    exact absurd h1 (by simp)
  · obtain ⟨uri, ver⟩ := uriver
    rw [hrl] at h1
    dsimp only at h1
    injection h1 with h1
    subst h1
    show (headerScan post).keep_alive = false ↔ _
    unfold headerScan headerLines
    rw [headerScanF_keep_alive]
    simp only [Bool.true_and, Bool.not_eq_false', List.any_eq_true,
      Bool.and_eq_true]

def dataC10 : List Char := chars "GET / HTTP/1.1\r\nConnection: close\r\n\r\n"

def rC10 : ParsedRequest :=
  ⟨chars "GET", chars "/", [], chars "HTTP/1.1",
    [(chars "Connection", chars "close")], [], false⟩

/-- C10 witness: the characterization applied to a request carrying
Connection close, whose parse has keep-alive false. -/
theorem claim_C10_witness :
    rC10.keep_alive = false ↔ ∃ nv ∈ headerLines (chars "Connection: close\r\n\r\n"),
      ciEq nv.1 (chars "Connection") = true ∧ ciEq nv.2 (chars "close") = true :=
  claim_C10_keep_alive.1 dataC10 rC10 (chars "GET / HTTP/1.1")
    (chars "Connection: close\r\n\r\n") (by decide) (by decide)

/-! ## Claim C7 -/

def ruleC7f : Rule :=
  (mkRule (chars "/a/") (some (chars "e")) none false).getD defaultRule

def mapC7f : Map := mkMap [ruleC7f]

def ruleC7t : Rule :=
  (mkRule (chars "/a/") (some (chars "e")) none true).getD defaultRule

def mapC7t : Map := mkMap [ruleC7t]

def ruleC7d : Rule :=
  (mkRule (chars "/b/<w>") (some (chars "e")) none true).getD defaultRule

/-- C7: the rule /a/ with strict_slashes false is matched by both /a and
/a/, and with strict_slashes true only by /a/; in general the alternate
static probe with the trailing slash toggled is honored only when the
probed rule has strict_slashes false, and the segment walk of a dynamic
rule without path converters tolerates exactly one extra trailing slash
only when its strict_slashes flag is false. -/
theorem claim_C7_strict_slashes :
    MapAdapter_match mapC7f (chars "/a") (chars "GET") = .matched (chars "e") [] ∧
    MapAdapter_match mapC7f (chars "/a/") (chars "GET") = .matched (chars "e") [] ∧
    MapAdapter_match mapC7t (chars "/a") (chars "GET") = .notFound ∧
    MapAdapter_match mapC7t (chars "/a/") (chars "GET") = .matched (chars "e") [] ∧
    (∀ (m : Map) (path method k : List Char) (ar : Rule),
      static_index_lookup m.static_index path = none →
      altKeyOf path = some k →
      static_index_lookup m.static_index k = some ar →
      (ar.strict_slashes = true →
        MapAdapter_match m path method =
          dynamicScan m.dynamic_rules path
            (cruet_method_str_to_bit (methodNorm method)) (methodNorm method)
            false) ∧
      (ar.strict_slashes = false →
        cruet_rule_has_method ar (cruet_method_str_to_bit (methodNorm method))
          (methodNorm method) = true →
        MapAdapter_match m path method = .matched (epStr ar) [])) ∧
    (∀ (r : Rule) (p : List Char) (vals : Vals),
      r.segs.all segNotPath = true →
      segLoop r.segs p [] = some (vals, []) →
      Cruet_Rule_match_internal r (p ++ ['/']) =
        (if r.strict_slashes then none else some vals) ∧
      Cruet_Rule_match_internal r (p ++ ['/', '/']) = none) := by
  refine ⟨by decide, by decide, by decide, by decide, ?_, ?_⟩
  · intro m path method k ar hs ha hs2
    constructor
    · intro hstrict
      unfold MapAdapter_match
      rw [hs]
      dsimp only
      rw [ha]
      dsimp only
      rw [hs2]
      dsimp only
      rw [if_pos hstrict]
    · intro hstrict hmeth
      unfold MapAdapter_match
      rw [hs]
      dsimp only
      rw [ha]
      dsimp only
      rw [hs2]
      dsimp only
      rw [if_neg (by simp [hstrict]), hmeth]
      rfl
  · intro r p vals hnp h
    exact (matchInternal_trailing r p vals hnp h).2

/-- C7 witness: the trailing-slash clause applied to the concrete strict
dynamic rule /b/<w>, whose walk consumes /b/q exactly; one extra slash is
rejected because strict_slashes is on. -/
theorem claim_C7_witness :
    Cruet_Rule_match_internal ruleC7d (chars "/b/q" ++ ['/']) =
      (if ruleC7d.strict_slashes then none
       else some [(chars "w", Val.vstr (chars "q"))]) :=
  (claim_C7_strict_slashes.2.2.2.2.2 ruleC7d (chars "/b/q")
    [(chars "w", Val.vstr (chars "q"))] (by decide) (by decide)).1

/-! ## Claim C8 -/

def ruleC8 : Rule :=
  (mkRule (chars "/h") (some (chars "e")) (some [chars "POST"]) true).getD defaultRule

def mapC8 : Map := mkMap [ruleC8]

/-- C8: every rule built by Rule_init allows HEAD and OPTIONS regardless of
the methods argument: both bits are always set in the bitmask, the methods
property lists both verbs, and the method test accepts them; consequently,
on a map whose rules all carry the two bits, any path matched by some probe
succeeds under the methods HEAD and OPTIONS. -/
theorem claim_C8_head_options :
    (∀ (pattern : List Char) (ep : Option (List Char))
        (methods : Option (List Str)) (strict : Bool) (r : Rule),
      mkRule pattern ep methods strict = some r →
      r.methods_bitmask &&& CRUET_METHOD_HEAD ≠ 0 ∧
      r.methods_bitmask &&& CRUET_METHOD_OPTIONS ≠ 0 ∧
      chars "HEAD" ∈ Rule_get_methods r ∧
      chars "OPTIONS" ∈ Rule_get_methods r ∧
      (∀ mu, cruet_rule_has_method r CRUET_METHOD_HEAD mu = true) ∧
      (∀ mu, cruet_rule_has_method r CRUET_METHOD_OPTIONS mu = true)) ∧
    (∀ (m : Map) (path : List Char),
      (∀ pr ∈ m.static_index,
        pr.2.methods_bitmask &&& CRUET_METHOD_HEAD ≠ 0 ∧
        pr.2.methods_bitmask &&& CRUET_METHOD_OPTIONS ≠ 0) →
      (∀ dr ∈ m.dynamic_rules,
        dr.methods_bitmask &&& CRUET_METHOD_HEAD ≠ 0 ∧
        dr.methods_bitmask &&& CRUET_METHOD_OPTIONS ≠ 0) →
      probedPathRules m path ≠ [] →
      (∃ ep v, MapAdapter_match m path (chars "HEAD") = .matched ep v) ∧
      (∃ ep v, MapAdapter_match m path (chars "OPTIONS") = .matched ep v)) := by
  refine ⟨?_, ?_⟩
  · intro pattern ep methods strict r h
    unfold mkRule at h
    rcases hps : parseSegs pattern with _ | segs
    · rw [hps] at h
      exact absurd h (by simp)
    · rw [hps] at h
      dsimp only at h
      injection h with h
      subst h
      refine ⟨mask_has_head _, mask_has_options _, ?_, ?_, ?_, ?_⟩
      · unfold Rule_get_methods
        apply List.mem_append_left
        refine List.mem_map.mpr ⟨(CRUET_METHOD_HEAD, chars "HEAD"),
          List.mem_filter.mpr ⟨by simp, decide_eq_true (mask_has_head _)⟩, rfl⟩
      · unfold Rule_get_methods
        apply List.mem_append_left
        refine List.mem_map.mpr ⟨(CRUET_METHOD_OPTIONS, chars "OPTIONS"),
          List.mem_filter.mpr ⟨by simp, decide_eq_true (mask_has_options _)⟩, rfl⟩
      · intro mu
        unfold cruet_rule_has_method
        rw [if_pos (show CRUET_METHOD_HEAD ≠ 0 by decide)]
        exact decide_eq_true (mask_has_head _)
      · intro mu
        unfold cruet_rule_has_method
        rw [if_pos (show CRUET_METHOD_OPTIONS ≠ 0 by decide)]
        exact decide_eq_true (mask_has_options _)
  · intro m path hstat hdyn hne
    have hbits : ∀ r ∈ probedPathRules m path,
        r.methods_bitmask &&& CRUET_METHOD_HEAD ≠ 0 ∧
        r.methods_bitmask &&& CRUET_METHOD_OPTIONS ≠ 0 := by
      intro r hr
      rcases probed_sub m path r hr with ⟨k, hk⟩ | hd
      · exact hstat (k, r) hk
      · exact hdyn r hd
    constructor
    · apply match_of_all_method m path (chars "HEAD") hne
      intro r hr
      have hb : cruet_method_str_to_bit (methodNorm (chars "HEAD")) =
          CRUET_METHOD_HEAD := by decide
      rw [hb]
      unfold cruet_rule_has_method
      rw [if_pos (show CRUET_METHOD_HEAD ≠ 0 by decide)]
      exact decide_eq_true (hbits r hr).1
    · apply match_of_all_method m path (chars "OPTIONS") hne
      intro r hr
      have hb : cruet_method_str_to_bit (methodNorm (chars "OPTIONS")) =
          CRUET_METHOD_OPTIONS := by decide
      rw [hb]
      unfold cruet_rule_has_method
      rw [if_pos (show CRUET_METHOD_OPTIONS ≠ 0 by decide)]
      exact decide_eq_true (hbits r hr).2

/-- C8 witness: the construction clause applied to a POST-only rule and the
map clause applied to the single-rule map at path /h under HEAD. -/
theorem claim_C8_witness :
    ruleC8.methods_bitmask &&& CRUET_METHOD_HEAD ≠ 0 ∧
    (∃ ep v, MapAdapter_match mapC8 (chars "/h") (chars "HEAD") = .matched ep v) :=
  ⟨(claim_C8_head_options.1 (chars "/h") (some (chars "e"))
      (some [chars "POST"]) true ruleC8 (by decide)).1,
   (claim_C8_head_options.2 mapC8 (chars "/h") (by decide) (by decide)
      (by decide)).1⟩

/-! ## Claim C3 -/

def ruleC3 : Rule :=
  (mkRule (chars "/u/<x>") (some (chars "e")) none true).getD defaultRule

def mapC3 : Map := mkMap [ruleC3]

def valsC3 : Vals := [(chars "x", Val.vstr (chars "a/b"))]

/-- C3 counterexample: in a map holding only the dynamic rule /u/<x>, the
value a/b for x round-trips exactly through its string converter and GET is
allowed by the rule, yet match on the built path /u/a/b reports not-found
rather than returning the endpoint and values: the capture of a non-path
dynamic segment stops at the first slash, so the round-trip claimed to be
guaranteed for the string converter fails. -/
theorem claim_C3_counterexample :
    (∀ p ∈ valsC3, convertSeg (Seg.sstring (chars "x")) (strOfVal p.2) = some p.2) ∧
    cruet_rule_has_method ruleC3
      (cruet_method_str_to_bit (methodNorm (chars "GET")))
      (methodNorm (chars "GET")) = true ∧
    MapAdapter_build mapC3 (chars "e") valsC3 = some (chars "/u/a/b") ∧
    MapAdapter_match mapC3 (chars "/u/a/b") (chars "GET") = .notFound := by
  exact ⟨by decide, by decide, by decide, by decide⟩

/-- C3 amended: for a dynamic rule registered in a map with endpoint e and a
values dict in segment order satisfying the strengthened round-trip
conditions (each non-path token nonempty and slash-free and followed in the
rule by a slash or the end, int values within the C long range since strtol
saturates at LONG_MAX, uuid values canonical lowercase, a path value
nonempty and followed by static text only), with distinct segment names,
the rule first among those bearing e, no static-index entry for the built
path, no honored alternate hit carrying the method, and every
earlier-registered dynamic rule either not matching the built path or not
allowing the method: match on the path built from (e, values) with a method
the rule allows returns exactly (e, values). -/
theorem claim_C3_roundtrip_amended :
    ∀ (m : Map) (r : Rule) (e : List Char) (v : Vals) (method : List Char)
      (dpre dpost : List Rule),
      m.rules.find? (fun x => x.endpoint = some e) = some r →
      m.dynamic_rules = dpre ++ r :: dpost →
      segsValsOk r.segs v = true →
      (dynNames r.segs).Nodup →
      static_index_lookup m.static_index (emitStr r.segs v) = none →
      (∀ k ar, altKeyOf (emitStr r.segs v) = some k →
        static_index_lookup m.static_index k = some ar →
        ar.strict_slashes = true ∨
        cruet_rule_has_method ar (cruet_method_str_to_bit (methodNorm method))
          (methodNorm method) = false) →
      (∀ r2 ∈ dpre, Cruet_Rule_match_internal r2 (emitStr r.segs v) = none ∨
        cruet_rule_has_method r2 (cruet_method_str_to_bit (methodNorm method))
          (methodNorm method) = false) →
      cruet_rule_has_method r (cruet_method_str_to_bit (methodNorm method))
        (methodNorm method) = true →
      MapAdapter_build m e v = some (emitStr r.segs v) ∧
      MapAdapter_match m (emitStr r.segs v) method = .matched (epStr r) v := by
  intro m r e v method dpre dpost hfind hsplit hsv hnd hstatic halt hpre hmeth
  have hvnodup : (v.map Prod.fst).Nodup := by
    rw [segsValsOk_names r.segs v hsv]
    exact hnd
  have hbuild : Rule_build r v = some (emitStr r.segs v) :=
    buildSegs_emit r.segs v v hsv (assocLookup_self v hvnodup)
  have hmint : Cruet_Rule_match_internal r (emitStr r.segs v) = some v :=
    matchInternal_emit r v hsv hnd
  have hscan : ∀ flag, dynamicScan m.dynamic_rules (emitStr r.segs v)
      (cruet_method_str_to_bit (methodNorm method)) (methodNorm method) flag =
      .matched (epStr r) v := by
    intro flag
    rw [hsplit]
    exact dynamicScan_first dpre r dpost _ _ _ flag v hpre hmint hmeth
  constructor
  · unfold MapAdapter_build
    rw [hfind]
    exact hbuild
  · rcases ha : altKeyOf (emitStr r.segs v) with _ | k
    · unfold MapAdapter_match
      rw [hstatic]; dsimp only; rw [ha]; dsimp only
      exact hscan false
    · rcases hlk : static_index_lookup m.static_index k with _ | ar
      · unfold MapAdapter_match
        rw [hstatic]; dsimp only; rw [ha]; dsimp only; rw [hlk]; dsimp only
        exact hscan false
      · rcases halt k ar ha hlk with hstrict | hnometh
        · unfold MapAdapter_match
          rw [hstatic]; dsimp only; rw [ha]; dsimp only; rw [hlk]; dsimp only
          rw [if_pos hstrict]
          exact hscan false
        · by_cases hstrict : ar.strict_slashes
          · unfold MapAdapter_match
            rw [hstatic]; dsimp only; rw [ha]; dsimp only; rw [hlk]; dsimp only
            rw [if_pos hstrict]
            exact hscan false
          · unfold MapAdapter_match
            rw [hstatic]; dsimp only; rw [ha]; dsimp only; rw [hlk]; dsimp only
            rw [if_neg hstrict, hnometh]
            rw [if_neg (by simp : ¬(false = true))]
            exact hscan true

def ruleC3w : Rule :=
  (mkRule (chars "/u/<int:n>") (some (chars "e")) none true).getD defaultRule

def mapC3w : Map := mkMap [ruleC3w]

def valsC3w : Vals := [(chars "n", Val.vint 5)]

/-- C3 witness: the amended round-trip applied to the single int rule
/u/<int:n> with value 5 and method GET, all side conditions discharged by
computation. -/
theorem claim_C3_witness :
    MapAdapter_build mapC3w (chars "e") valsC3w =
      some (emitStr ruleC3w.segs valsC3w) ∧
    MapAdapter_match mapC3w (emitStr ruleC3w.segs valsC3w) (chars "GET") =
      .matched (epStr ruleC3w) valsC3w :=
  claim_C3_roundtrip_amended mapC3w ruleC3w (chars "e") valsC3w (chars "GET")
    [] [] (by decide) (by decide) (by decide) (by decide) (by decide)
    (fun k ar hk hl => by
      have hidx : mapC3w.static_index = [] := by decide
      rw [hidx] at hl
      exact absurd hl (by simp [static_index_lookup]))
    (fun r2 h2 => absurd h2 (List.not_mem_nil r2))
    (by decide)

end Cruet
